import Mathlib

/-!
Verification development for the CNN-RNN-CO2 proxy model
(`src/utils_torch.py`).

The PyTorch program is shallowly embedded:

* tensors are a row-major flat list of exact rationals (`ℚ`) together with a
  shape list; floating-point arithmetic is idealised as exact rational
  arithmetic;
* a PyTorch runtime error (shape mismatch, impossible `-1` inference,
  reflection padding larger than the image, out-of-range index, `torch.stack`
  on an empty list, the `nn.MultiheadAttention` divisibility assert, ...) is
  modelled as `none` in `Option`-returning operations;
* transcendental scalar functions that the network uses pointwise (GELU, the
  LSTM gate sigmoid/tanh, the SSIM Gaussian-kernel weights) have no closed
  rational form, so they are taken as explicit function parameters of the
  embedded modules; every theorem quantifies over them, hence holds in
  particular for the library's actual functions, and counterexamples
  instantiate them with concrete computable functions;
* shape-only claims about the composite model are settled against a shape
  semantics that mirrors, layer by layer, the size arithmetic and the size
  checks of the layers used by the source.
-/

set_option autoImplicit false
set_option linter.unusedVariables false
set_option linter.unnecessarySeqFocus false

/-- A tensor: a shape together with row-major flat data.  Floats are
idealised as `ℚ`. -/
structure Tensor where
  shape : List ℕ
  data : List ℚ
deriving DecidableEq, Repr

/-- Well-formedness: the flat data has exactly as many entries as the shape
demands. -/
def Tensor.wf (t : Tensor) : Prop := t.data.length = t.shape.prod

/-- Element count of a tensor, as PyTorch computes it from the shape. -/
def Tensor.numel (t : Tensor) : ℕ := t.shape.prod

/-- Read an entry of the flat data (out-of-range reads default to `0`; all
uses are guarded by bounds). -/
def Tensor.entry (t : Tensor) (k : ℕ) : ℚ := t.data.getD k 0

/-- Entry of an optional tensor, for stating facts about fallible forward
passes. -/
def entryOpt (o : Option Tensor) (k : ℕ) : Option ℚ :=
  o.map fun t => t.entry k

/-- `torch.Tensor.reshape` with a requested dimension list `pre ++ [-1] ++
post`.  PyTorch infers the `-1` entry as `numel / (pre.prod * post.prod)` and
raises when the product of the known entries is zero or does not divide the
element count; on the contiguous tensors of this program the data is
reinterpreted unchanged. -/
def reshapeInfer (t : Tensor) (pre post : List ℕ) : Option Tensor :=
  let known := pre.prod * post.prod
  let n := t.numel
  if 0 < known ∧ n % known = 0 then
    some ⟨pre ++ n / known :: post, t.data⟩
  else none

/-- `TimeDistributedModule.forward` (src/utils_torch.py lines 67-72): unpack
the five sizes of the input, collapse batch and time via
`x.reshape(-1, c, h, w)`, apply the wrapped module, then restore the
batch/time split via `module_output.reshape(b, t, -1, s2, s3)` where `s2, s3`
are the module output's spatial sizes.  All wrapped modules of this program
return 4D tensors. -/
def timeDistributedForward (module : Tensor → Option Tensor) (x : Tensor) :
    Option Tensor :=
  match x.shape with
  | [b, t, c, h, w] => do
      let r ← reshapeInfer x [] [c, h, w]
      let mo ← module r
      match mo.shape with
      | [_bt, _c2, h2, w2] => reshapeInfer mo [b, t] [h2, w2]
      | _ => none
  | _ => none

/-- An identity per-frame module (`nn.Identity`): returns its input. -/
def identityModule : Tensor → Option Tensor := fun t => some t

/-- A reshape whose `-1` is inferrable computes the expected shape and keeps
the data. -/
theorem reshapeInfer_eq (sh : List ℕ) (d : List ℚ) (pre post : List ℕ)
    (m : ℕ) (hpos : 0 < pre.prod * post.prod)
    (heq : sh.prod = m * (pre.prod * post.prod)) :
    reshapeInfer ⟨sh, d⟩ pre post = some ⟨pre ++ m :: post, d⟩ := by
  unfold reshapeInfer Tensor.numel
  simp only [heq]
  rw [if_pos ⟨hpos, Nat.mul_mod_left m _⟩, Nat.mul_div_cancel _ hpos]

/-- C5, amended: on a 5D input all of whose dimensions are positive, the
time-distributed wrapper around the identity module returns exactly its
input: same shape, same values. -/
theorem c5_td_identity_of_pos (b t c h w : ℕ) (x : Tensor)
    (hs : x.shape = [b, t, c, h, w])
    (hb : 0 < b) (ht : 0 < t) (hc : 0 < c) (hh : 0 < h) (hw : 0 < w) :
    timeDistributedForward identityModule x = some x := by
  obtain ⟨sh, d⟩ := x
  simp only at hs
  subst hs
  have h1 : reshapeInfer ⟨[b, t, c, h, w], d⟩ [] [c, h, w] =
      some ⟨[b * t, c, h, w], d⟩ := by
    simpa using reshapeInfer_eq [b, t, c, h, w] d [] [c, h, w] (b * t)
      (by simp only [List.prod_nil, List.prod_cons, one_mul, mul_one]; positivity)
      (by simp only [List.prod_nil, List.prod_cons, one_mul, mul_one]; ring)
  have h2 : reshapeInfer ⟨[b * t, c, h, w], d⟩ [b, t] [h, w] =
      some ⟨[b, t, c, h, w], d⟩ := by
    simpa using reshapeInfer_eq [b * t, c, h, w] d [b, t] [h, w] c
      (by simp only [List.prod_nil, List.prod_cons, one_mul, mul_one]; positivity)
      (by simp only [List.prod_nil, List.prod_cons, one_mul, mul_one]; ring)
  simp [timeDistributedForward, h1, h2, identityModule]

/-- C5, witness: a concrete positive-dimension instance of
`c5_td_identity_of_pos`. -/
theorem c5_td_identity_witness :
    timeDistributedForward identityModule ⟨[1, 2, 1, 1, 1], [3, 7]⟩ =
      some ⟨[1, 2, 1, 1, 1], [3, 7]⟩ :=
  c5_td_identity_of_pos 1 2 1 1 1 _ rfl (by decide) (by decide) (by decide)
    (by decide) (by decide)

/-- C5, counterexample to the claim as stated: for the well-formed 5D input
of shape `[0,1,1,1,1]` (batch size `0`) the wrapper does not return its
input — the second `reshape`'s `-1` cannot be inferred (`b*t*h2*w2 = 0`), so
the forward pass raises, exactly as PyTorch does. -/
theorem c5_counterexample :
    timeDistributedForward identityModule ⟨[0, 1, 1, 1, 1], []⟩ = none ∧
    (Tensor.mk [0, 1, 1, 1, 1] []).wf := by
  exact ⟨rfl, rfl⟩

/-! ### Shape-level semantics of the composite model -/

/-- A tensor shape. -/
abbrev Shape := List ℕ

/-- Size arithmetic and size check of `nn.Conv2d` with square kernel `k`,
stride 1, padding `p` (dilation 1), from channel count `cin` to `cout`:
PyTorch raises when the input channel count differs or when the padded size
is smaller than the kernel.  The depthwise convolution of `SeparableConv2d`
(`groups=in_channels`) has the same size behaviour. -/
def conv2dShape (cin cout k p : ℕ) : Shape → Option Shape
  | [n, c, h, w] =>
      if c = cin ∧ k ≤ h + 2 * p ∧ k ≤ w + 2 * p then
        some [n, cout, h + 2 * p - k + 1, w + 2 * p - k + 1]
      else none
  | _ => none

/-- `SeparableConv2d` (src lines 50-59): depthwise 3×3 convolution with
padding 1 followed by a pointwise 1×1 convolution. -/
def sepConv2dShape (cin cout : ℕ) (s : Shape) : Option Shape :=
  (conv2dShape cin cin 3 1 s).bind (conv2dShape cin cout 1 0)

/-- `nn.InstanceNorm2d`: size-preserving, but raises (`Expected more than 1
spatial element`) when the per-channel spatial extent is a single value. -/
def instanceNorm2dShape : Shape → Option Shape
  | [n, c, h, w] => if 1 < h * w then some [n, c, h, w] else none
  | _ => none

/-- `nn.AvgPool2d(kernel_size=2, stride=2)`: raises when the output size
would be empty. -/
def avgPool2dShape : Shape → Option Shape
  | [n, c, h, w] =>
      if 2 ≤ h ∧ 2 ≤ w then some [n, c, (h - 2) / 2 + 1, (w - 2) / 2 + 1]
      else none
  | _ => none

/-- `conv_block.forward` (src lines 85-90): two separable convolutions, then
instance normalisation, then GELU (size-preserving), then 2×2 average
pooling. -/
def convBlockShape (cin cout : ℕ) (s : Shape) : Option Shape :=
  (sepConv2dShape cin cin s).bind fun s1 =>
  (sepConv2dShape cin cout s1).bind fun s2 =>
  (instanceNorm2dShape s2).bind avgPool2dShape

/-- `nn.MultiheadAttention.__init__` asserts `embed_dim % num_heads == 0`
("embed_dim must be divisible by num_heads") at construction time. -/
def multiheadAttentionInit (embedDim numHeads : ℕ) : Option Unit :=
  if embedDim % numHeads = 0 then some () else none

/-- `VisionTransformer.__init__` (src lines 108-117): the projector and the
feed-forward layers always construct; the 16-head attention construction
fails exactly when the embedding width is not divisible by 16. -/
def visionTransformerInit (inputChannels outputChannels : ℕ) : Option Unit :=
  multiheadAttentionInit outputChannels 16

/-- `VisionTransformer.forward` (src lines 119-128) size behaviour: the 1×1
projector maps channels `cin → cout`; the flatten/permute pair, the 16-head
self-attention over the `h*w` tokens of width `cout`, the second
permute/view pair and the per-last-dimension `Linear` layers are all
size-preserving and all their explicit `view` sizes are consistent, so the
output size equals the projector's output size. -/
def visionTransformerShape (cin cout : ℕ) (s : Shape) : Option Shape :=
  conv2dShape cin cout 1 0 s

/-- `RecurrentBlock.forward` (src lines 141-149) size behaviour: the input
is flattened to `c*h*w` features and repeated `timesteps` times; the LSTM
raises unless this feature count equals its configured
`input_size = input_dim * im_size * im_size`; its output feature count is
`hidden_dim * im_size * im_size`, which the final `view` regroups as
`[n, timesteps, hidden_dim, im_size, im_size]` (always consistent). -/
def recurrentBlockShape (inputDim hiddenDim timesteps imSize : ℕ) :
    Shape → Option Shape
  | [n, c, h, w] =>
      if c * h * w = inputDim * imSize * imSize then
        some [n, timesteps, hiddenDim, imSize, imSize]
      else none
  | _ => none

/-- `nn.ConvTranspose2d(kernel_size=3, stride=2, padding=1,
output_padding=1)`: output spatial size `(h-1)*2 - 2 + (3-1) + 1 + 1 = 2*h`;
raises on an empty input extent. -/
def convTranspose2dShape (cin cout : ℕ) : Shape → Option Shape
  | [n, c, h, w] =>
      if c = cin ∧ 1 ≤ h ∧ 1 ≤ w then some [n, cout, 2 * h, 2 * w] else none
  | _ => none

/-- `decon_block.forward` (src lines 100-104): transposed convolution,
instance normalisation, GELU. -/
def deconBlockShape (cin cout : ℕ) (s : Shape) : Option Shape :=
  (convTranspose2dShape cin cout s).bind instanceNorm2dShape

/-- Shape-level `reshape` with dimension list `pre ++ [-1] ++ post`
(cf. `reshapeInfer`). -/
def reshapeInferShape (s : Shape) (pre post : List ℕ) : Option Shape :=
  let known := pre.prod * post.prod
  if 0 < known ∧ s.prod % known = 0 then some (pre ++ s.prod / known :: post)
  else none

/-- Shape-level `TimeDistributedModule.forward` (src lines 67-72). -/
def timeDistributedShape (inner : Shape → Option Shape) : Shape → Option Shape
  | [b, t, c, h, w] =>
      (reshapeInferShape [b, t, c, h, w] [] [c, h, w]).bind fun r =>
      (inner r).bind fun mo =>
      match mo with
      | [_bt, _c2, h2, w2] => reshapeInferShape mo [b, t] [h2, w2]
      | _ => none
  | _ => none

/-- Encoder of `ProxyModel` (src lines 155-158): channel path 4→8→16→32,
each stage halving the spatial size. -/
def encoderShape (s : Shape) : Option Shape :=
  (convBlockShape 4 8 s).bind fun s1 =>
  (convBlockShape 8 16 s1).bind (convBlockShape 16 32)

/-- `ProxyModel.forward` (src lines 169-174) size behaviour: encoder, then
the attention block (32→64 channels), then `RecurrentBlock(64, 32,
im_size=2**3)` with the default 60 timesteps, then the three time-distributed
decoder stages 32→16→8→2. -/
def proxyModelShape (s : Shape) : Option Shape :=
  (encoderShape s).bind fun e =>
  (visionTransformerShape 32 64 e).bind fun v =>
  (recurrentBlockShape 64 32 60 8 v).bind fun r =>
  (timeDistributedShape (deconBlockShape 32 16) r).bind fun d1 =>
  (timeDistributedShape (deconBlockShape 16 8) d1).bind fun d2 =>
  timeDistributedShape (deconBlockShape 8 2) d2

/-- Unfolding lemma for the 4D case of `conv2dShape`. -/
theorem conv2dShape_eq (cin cout k p n c h w : ℕ) :
    conv2dShape cin cout k p [n, c, h, w] =
      if c = cin ∧ k ≤ h + 2 * p ∧ k ≤ w + 2 * p then
        some [n, cout, h + 2 * p - k + 1, w + 2 * p - k + 1]
      else none := rfl

/-- A separable convolution succeeds exactly on nonempty spatial sizes,
preserving them. -/
theorem sepConv2dShape_char (cin cout n c h w : ℕ) :
    sepConv2dShape cin cout [n, c, h, w] =
      if c = cin ∧ 1 ≤ h ∧ 1 ≤ w then some [n, cout, h, w] else none := by
  rw [sepConv2dShape, conv2dShape_eq]
  by_cases hc : c = cin ∧ 1 ≤ h ∧ 1 ≤ w
  · obtain ⟨hc1, hc2, hc3⟩ := hc
    rw [if_pos ⟨hc1, by omega, by omega⟩]
    simp only [Option.some_bind]
    rw [conv2dShape_eq, if_pos ⟨rfl, by omega, by omega⟩,
      if_pos ⟨hc1, hc2, hc3⟩]
    simp only [Option.some.injEq, List.cons.injEq]
    exact ⟨trivial, trivial, by omega, by omega, trivial⟩
  · rw [if_neg fun hcon => hc ⟨hcon.1, by omega, by omega⟩, if_neg hc]
    simp

/-- One encoder block succeeds exactly on spatial sizes of at least 2,
halving them. -/
theorem convBlockShape_char (cin cout n c h w : ℕ) :
    convBlockShape cin cout [n, c, h, w] =
      if c = cin ∧ 2 ≤ h ∧ 2 ≤ w then some [n, cout, h / 2, w / 2]
      else none := by
  rw [convBlockShape, sepConv2dShape_char]
  by_cases hc1 : c = cin ∧ 1 ≤ h ∧ 1 ≤ w
  · rw [if_pos hc1]
    simp only [Option.some_bind]
    rw [sepConv2dShape_char, if_pos ⟨rfl, hc1.2.1, hc1.2.2⟩]
    simp only [Option.some_bind, instanceNorm2dShape]
    by_cases hc : c = cin ∧ 2 ≤ h ∧ 2 ≤ w
    · have hnorm : 1 < h * w := by
        have := Nat.mul_le_mul hc.2.1 hc.2.2
        omega
      rw [if_pos hnorm]
      simp only [Option.some_bind, avgPool2dShape]
      rw [if_pos ⟨hc.2.1, hc.2.2⟩, if_pos hc]
      simp only [Option.some.injEq, List.cons.injEq]
      exact ⟨trivial, trivial, by omega, by omega, trivial⟩
    · by_cases hnorm : 1 < h * w
      · rw [if_pos hnorm]
        simp only [Option.some_bind, avgPool2dShape]
        rw [if_neg fun hcon => hc ⟨hc1.1, hcon.1, hcon.2⟩, if_neg hc]
      · rw [if_neg hnorm, if_neg hc]
        simp
  · rw [if_neg hc1, if_neg fun hcon => hc1 ⟨hcon.1, by omega, by omega⟩]
    simp

/-- The three-stage encoder succeeds exactly on spatial sizes of at least 8,
dividing them by 8 (three floor halvings). -/
theorem encoderShape_char (n h w : ℕ) :
    encoderShape [n, 4, h, w] =
      if 8 ≤ h ∧ 8 ≤ w then some [n, 32, h / 8, w / 8] else none := by
  rw [encoderShape, convBlockShape_char]
  by_cases hc : 8 ≤ h ∧ 8 ≤ w
  · rw [if_pos ⟨rfl, by omega, by omega⟩]
    simp only [Option.some_bind]
    rw [convBlockShape_char, if_pos ⟨rfl, by omega, by omega⟩]
    simp only [Option.some_bind]
    rw [convBlockShape_char, if_pos ⟨rfl, by omega, by omega⟩, if_pos hc]
    simp only [Option.some.injEq, List.cons.injEq]
    exact ⟨trivial, trivial, by omega, by omega, trivial⟩
  · by_cases h2 : 2 ≤ h ∧ 2 ≤ w
    · rw [if_pos ⟨rfl, h2.1, h2.2⟩]
      simp only [Option.some_bind]
      by_cases h4 : 2 ≤ h / 2 ∧ 2 ≤ w / 2
      · rw [convBlockShape_char, if_pos ⟨rfl, h4.1, h4.2⟩]
        simp only [Option.some_bind]
        rw [convBlockShape_char,
          if_neg fun hcon => hc ⟨by omega, by omega⟩, if_neg hc]
      · rw [convBlockShape_char, if_neg fun hcon => h4 ⟨hcon.2.1, hcon.2.2⟩,
          if_neg hc]
        simp
    · rw [if_neg fun hcon => h2 ⟨hcon.2.1, hcon.2.2⟩, if_neg hc]
      simp

/-- A shape-level reshape whose `-1` is inferrable computes the expected
shape. -/
theorem reshapeInferShape_eq (s : Shape) (pre post : List ℕ) (m : ℕ)
    (hpos : 0 < pre.prod * post.prod)
    (heq : s.prod = m * (pre.prod * post.prod)) :
    reshapeInferShape s pre post = some (pre ++ m :: post) := by
  unfold reshapeInferShape
  simp only [heq]
  rw [if_pos ⟨hpos, Nat.mul_mod_left m _⟩, Nat.mul_div_cancel _ hpos]

/-- A time-distributed decoder block on a positive-size 5D input doubles the
spatial sizes and maps `cin` to `cout` channels. -/
theorem tdDeconShape_eq (cin cout b t h w : ℕ) (hbt : 0 < b * t)
    (hcin : 0 < cin) (hh : 1 ≤ h) (hw : 1 ≤ w) :
    timeDistributedShape (deconBlockShape cin cout) [b, t, cin, h, w] =
      some [b, t, cout, 2 * h, 2 * w] := by
  have hb : 0 < b := by
    rcases Nat.eq_zero_or_pos b with h0 | h1
    · rw [h0, zero_mul] at hbt; omega
    · exact h1
  have ht : 0 < t := by
    rcases Nat.eq_zero_or_pos t with h0 | h1
    · rw [h0, mul_zero] at hbt; omega
    · exact h1
  have h1 : reshapeInferShape [b, t, cin, h, w] [] [cin, h, w] =
      some [b * t, cin, h, w] := by
    simpa using reshapeInferShape_eq [b, t, cin, h, w] [] [cin, h, w] (b * t)
      (by simp only [List.prod_nil, List.prod_cons, one_mul, mul_one]
          exact Nat.mul_pos hcin (Nat.mul_pos (by omega) (by omega)))
      (by simp only [List.prod_nil, List.prod_cons, one_mul, mul_one]; ring)
  have h2 : deconBlockShape cin cout [b * t, cin, h, w] =
      some [b * t, cout, 2 * h, 2 * w] := by
    rw [deconBlockShape]
    show (convTranspose2dShape cin cout [b * t, cin, h, w]).bind _ = _
    rw [show convTranspose2dShape cin cout [b * t, cin, h, w] =
        if cin = cin ∧ 1 ≤ h ∧ 1 ≤ w then some [b * t, cout, 2 * h, 2 * w]
        else none from rfl]
    rw [if_pos ⟨rfl, hh, hw⟩]
    simp only [Option.some_bind, instanceNorm2dShape]
    rw [if_pos (by nlinarith)]
  have h3 : reshapeInferShape [b * t, cout, 2 * h, 2 * w] [b, t]
      [2 * h, 2 * w] = some [b, t, cout, 2 * h, 2 * w] := by
    simpa using reshapeInferShape_eq [b * t, cout, 2 * h, 2 * w] [b, t]
      [2 * h, 2 * w] cout
      (by simp only [List.prod_nil, List.prod_cons, one_mul, mul_one]
          exact Nat.mul_pos (Nat.mul_pos hb ht)
            (Nat.mul_pos (by omega) (by omega)))
      (by simp only [List.prod_nil, List.prod_cons, one_mul, mul_one]; ring)
  simp [timeDistributedShape, h1, h2, h3]

/-- C1, amended: for positive batch size, the composite model's shape-level
forward pass succeeds if and only if `(h/8)*(w/8) = 64` (e.g. a 64×64 grid,
matching the hard-coded `im_size=2**3` of the recurrent block), and then the
output shape is `[n, 60, 2, 64, 64]` — with the spatial size fixed at 64×64
by the recurrent block's `view`, not inherited from the input. -/
theorem c1_proxy_shape_char (n h w : ℕ) (hn : 0 < n) :
    proxyModelShape [n, 4, h, w] = some [n, 60, 2, 64, 64] ↔
      h / 8 * (w / 8) = 64 := by
  constructor
  · intro hsome
    by_contra hne
    by_cases h8 : 8 ≤ h ∧ 8 ≤ w
    · have henc : encoderShape [n, 4, h, w] = some [n, 32, h / 8, w / 8] := by
        rw [encoderShape_char, if_pos h8]
      have hvit : visionTransformerShape 32 64 [n, 32, h / 8, w / 8] =
          some [n, 64, h / 8, w / 8] := by
        rw [visionTransformerShape, conv2dShape_eq,
          if_pos ⟨rfl, by omega, by omega⟩]
        simp only [Option.some.injEq, List.cons.injEq]
        exact ⟨trivial, trivial, by omega, by omega, trivial⟩
      have hrec : recurrentBlockShape 64 32 60 8 [n, 64, h / 8, w / 8] =
          none := by
        show (if 64 * (h / 8) * (w / 8) = 64 * 8 * 8 then _ else none) = none
        rw [if_neg]
        intro hc
        apply hne
        have h2 : 64 * (h / 8 * (w / 8)) = 64 * 64 := by
          rw [← mul_assoc]
          exact hc.trans (by norm_num)
        exact Nat.eq_of_mul_eq_mul_left (by norm_num) h2
      rw [proxyModelShape, henc] at hsome
      simp only [Option.some_bind, hvit, hrec, Option.none_bind] at hsome
      exact Option.noConfusion hsome
    · have henc : encoderShape [n, 4, h, w] = none := by
        rw [encoderShape_char, if_neg h8]
      rw [proxyModelShape, henc] at hsome
      simp only [Option.none_bind] at hsome
      exact Option.noConfusion hsome
  · intro heq
    have hh8 : 1 ≤ h / 8 := by
      rcases Nat.eq_zero_or_pos (h / 8) with h0 | h1
      · rw [h0] at heq; simp at heq
      · exact h1
    have hw8 : 1 ≤ w / 8 := by
      rcases Nat.eq_zero_or_pos (w / 8) with h0 | h1
      · rw [h0] at heq; simp at heq
      · exact h1
    have h8 : 8 ≤ h ∧ 8 ≤ w := ⟨by omega, by omega⟩
    have henc : encoderShape [n, 4, h, w] = some [n, 32, h / 8, w / 8] := by
      rw [encoderShape_char, if_pos h8]
    have hvit : visionTransformerShape 32 64 [n, 32, h / 8, w / 8] =
        some [n, 64, h / 8, w / 8] := by
      rw [visionTransformerShape, conv2dShape_eq,
        if_pos ⟨rfl, by omega, by omega⟩]
      simp only [Option.some.injEq, List.cons.injEq]
      exact ⟨trivial, trivial, by omega, by omega, trivial⟩
    have hrec : recurrentBlockShape 64 32 60 8 [n, 64, h / 8, w / 8] =
        some [n, 60, 32, 8, 8] := by
      show (if 64 * (h / 8) * (w / 8) = 64 * 8 * 8 then
        some [n, 60, 32, 8, 8] else none) = some [n, 60, 32, 8, 8]
      rw [if_pos (by rw [mul_assoc, heq]; norm_num)]
    have hd1 := tdDeconShape_eq 32 16 n 60 8 8 (Nat.mul_pos hn (by norm_num)) (by norm_num)
      (by norm_num) (by norm_num)
    have hd2 := tdDeconShape_eq 16 8 n 60 16 16 (Nat.mul_pos hn (by norm_num)) (by norm_num)
      (by norm_num) (by norm_num)
    have hd3 := tdDeconShape_eq 8 2 n 60 32 32 (Nat.mul_pos hn (by norm_num)) (by norm_num)
      (by norm_num) (by norm_num)
    rw [proxyModelShape, henc]
    simp only [Option.some_bind, hvit, hrec]
    norm_num at hd1 hd2 hd3
    simp [hd1, hd2, hd3]

/-- C1, witness: a 64×64 input with batch 1 succeeds with output shape
`(1, 60, 2, 64, 64)`. -/
theorem c1_proxy_shape_witness :
    0 < 1 ∧ proxyModelShape [1, 4, 64, 64] = some [1, 60, 2, 64, 64] :=
  ⟨by decide, (c1_proxy_shape_char 1 64 64 (by decide)).mpr (by decide)⟩

/-- C1, counterexample to the claim as stated: the spec's own scenario — a
batch of 2 samples with 4 channels on a 16×16 grid (16 divisible by 8) — does
not produce a `(2, 60, 2, 16, 16)` output; the forward pass raises, because
the encoded 2×2 map yields 256 LSTM input features where the hard-coded
`input_size` is 4096. -/
theorem c1_counterexample :
    (8 ∣ 16) ∧ proxyModelShape [2, 4, 16, 16] = none := by decide

/-- C7: constructing the attention block with an embedding width not
divisible by the head count 16 fails at construction time (the
`nn.MultiheadAttention` divisibility assert), before any forward
evaluation. -/
theorem c7_vit_init_fails (cin cout : ℕ) (hco : cout % 16 ≠ 0) :
    visionTransformerInit cin cout = none := by
  unfold visionTransformerInit multiheadAttentionInit
  rw [if_neg hco]

/-- C7, witness: embedding width 10 is rejected. -/
theorem c7_vit_init_witness :
    10 % 16 ≠ 0 ∧ visionTransformerInit 32 10 = none :=
  ⟨by decide, c7_vit_init_fails 32 10 (by decide)⟩

/-! ### Value-level attention-block tail (src lines 124-128) -/

/-- Reading a constructed list at an in-range index gives the generating
function's value. -/
theorem getD_ofFn {n : ℕ} (f : Fin n → ℚ) (i : ℕ) (h : i < n) :
    (List.ofFn f).getD i 0 = f ⟨i, h⟩ := by
  have hlen : i < (List.ofFn f).length := by simpa using h
  rw [List.getD_eq_getElem?_getD, List.getElem?_eq_getElem hlen]
  simp

/-- Row-major bound: a two-level index stays below the unflattened size. -/
theorem addMulLt {a b x y : ℕ} (ha : a < x) (hb : b < y) :
    a * y + b < x * y := by
  calc a * y + b < a * y + y := by omega
    _ = (a + 1) * y := by ring
    _ ≤ x * y := Nat.mul_le_mul_right y ha

/-- Quotient of a two-level row-major index. -/
theorem mulAddDiv (a x m : ℕ) (hx : x < m) : (a * m + x) / m = a := by
  rw [Nat.add_comm, Nat.mul_comm a m,
    Nat.add_mul_div_left _ _ (by omega : 0 < m), Nat.div_eq_of_lt hx]
  omega

/-- Remainder of a two-level row-major index. -/
theorem mulAddMod (a x m : ℕ) (hx : x < m) : (a * m + x) % m = x := by
  rw [Nat.add_comm, Nat.mul_comm a m, Nat.add_mul_mod_self_left,
    Nat.mod_eq_of_lt hx]

/-- Parameters of the attention block's feed-forward: two `nn.Linear(C, C)`
layers (weight matrices in PyTorch's `(out_features, in_features)` layout
plus bias vectors, src lines 114-117). -/
structure FfnParams where
  w1 : ℕ → ℕ → ℚ
  b1 : ℕ → ℚ
  w2 : ℕ → ℕ → ℚ
  b2 : ℕ → ℚ

/-- The feed-forward `Linear → GELU → Linear` applied to one width-`C` token
vector (src line 126): component `i` of `W2 · gelu(W1 · v + b1) + b2`. -/
def ffnApply (gelu : ℚ → ℚ) (C : ℕ) (P : FfnParams) (v : ℕ → ℚ) (i : ℕ) : ℚ :=
  (∑ j in Finset.range C,
    P.w2 i j * gelu ((∑ k in Finset.range C, P.w1 j k * v k) + P.b1 j)) +
  P.b2 i

/-- Entry `m` of `attended_x.permute(0, 2, 1, 3).contiguous()` (src line
125): position `m` of the row-major `(B, H, C, W)` buffer reads the
`(B, C, H, W)`-laid-out source (`d`) at the transposed multi-index. -/
def scrEntry (d : List ℚ) (C H W m : ℕ) : ℚ :=
  let b := m / (H * (C * W))
  let r := m % (H * (C * W))
  let h := r / (C * W)
  let r2 := r % (C * W)
  let c := r2 / W
  let w := r2 % W
  d.getD (((b * C + c) * H + h) * W + w) 0

/-- Entry `q` of the token that `.view(batch_size, height * width,
channels)` (src line 125) assigns to batch `b`, token index `i*W + j`: the
`C` consecutive entries of the `(B, H, C, W)` buffer starting at flat offset
`(b*(H*W) + i*W + j) * C`.  Because the buffer was flattened in `(H, C, W)`
order rather than `(H, W, C)` order, this token is in general not the
channel fibre of any single spatial position. -/
def tokenEntry (d : List ℚ) (C H W b i j : ℕ) (q : ℕ) : ℚ :=
  scrEntry d C H W ((b * (H * W) + (i * W + j)) * C + q)

/-- Entry `m` of `self.ffn(attended_x)` (src line 126) in the `(B, H*W, C)`
layout: the feed-forward applied along the last dimension, reading the
`C`-wide chunk of the scrambled buffer that starts at `(m / C) * C`. -/
def ffnFlatEntry (gelu : ℚ → ℚ) (P : FfnParams) (C H W : ℕ) (d : List ℚ)
    (m : ℕ) : ℚ :=
  ffnApply gelu C P (fun q => scrEntry d C H W (m / C * C + q)) (m % C)

/-- Entry `k` of the block output (src line 127): `ffn_output.view(B, H, W,
C).permute(0, 3, 1, 2)` places at `(b, c, i, j)` the feed-forward value of
token `i*W + j`, channel `c`. -/
def vitOutEntry (gelu : ℚ → ℚ) (P : FfnParams) (B C H W : ℕ) (d : List ℚ)
    (k : ℕ) : ℚ :=
  let b := k / (C * (H * W))
  let r := k % (C * (H * W))
  let c := r / (H * W)
  let r2 := r % (H * W)
  let i := r2 / W
  let j := r2 % W
  (List.ofFn (n := B * (H * W) * C) fun m =>
    ffnFlatEntry gelu P C H W d (m : ℕ)).getD (((b * H + i) * W + j) * C + c) 0

/-- `VisionTransformer.forward` after the attention call, taking the
attended map `attended_x` in its `(B, C, H, W)` layout of src line 124:
line 125 permutes to `(B, H, C, W)` and reinterprets the buffer as
`(B, H*W, C)`, line 126 applies the feed-forward along the last dimension,
line 127 views the result as `(B, H, W, C)` and permutes it back to
`(B, C, H, W)`. -/
def vitFfnPart (gelu : ℚ → ℚ) (P : FfnParams) (a : Tensor) : Option Tensor :=
  match a.shape with
  | [B, C, H, W] =>
      some ⟨[B, C, H, W], List.ofFn (n := B * (C * (H * W))) fun k =>
        vitOutEntry gelu P B C H W a.data (k : ℕ)⟩
  | _ => none

/-- The feed-forward only reads its token vector on indices below `C`. -/
theorem ffnApply_congr (gelu : ℚ → ℚ) (C : ℕ) (P : FfnParams)
    (v v' : ℕ → ℚ) (h : ∀ q, q < C → v q = v' q) (i : ℕ) :
    ffnApply gelu C P v i = ffnApply gelu C P v' i := by
  unfold ffnApply
  refine congrArg (· + P.b2 i) ?_
  refine Finset.sum_congr rfl fun j hj => ?_
  have hv : (∑ k in Finset.range C, P.w1 j k * v k) =
      ∑ k in Finset.range C, P.w1 j k * v' k :=
    Finset.sum_congr rfl fun k hk => by rw [h k (Finset.mem_range.mp hk)]
  rw [hv]

/-- Output entry `(b, c, i, j)` of the attention-block tail is component `c`
of the feed-forward applied to the (scrambled) token of batch `b`, token
index `i*W + j`. -/
theorem vitFfnPart_entry (gelu : ℚ → ℚ) (P : FfnParams) (B C H W : ℕ)
    (a : Tensor) (ha : a.shape = [B, C, H, W])
    (b c i j : ℕ) (hb : b < B) (hc : c < C) (hi : i < H) (hj : j < W) :
    entryOpt (vitFfnPart gelu P a) (((b * C + c) * H + i) * W + j) =
      some (ffnApply gelu C P (tokenEntry a.data C H W b i j) c) := by
  have hij : i * W + j < H * W := addMulLt hi hj
  have hinner : c * (H * W) + (i * W + j) < C * (H * W) := addMulLt hc hij
  have hk_eq : ((b * C + c) * H + i) * W + j =
      b * (C * (H * W)) + (c * (H * W) + (i * W + j)) := by ring
  have hk_lt : ((b * C + c) * H + i) * W + j < B * (C * (H * W)) := by
    rw [hk_eq]; exact addMulLt hb hinner
  have htok : b * (H * W) + (i * W + j) < B * (H * W) := addMulLt hb hij
  have hm_eq : ((b * H + i) * W + j) * C + c =
      (b * (H * W) + (i * W + j)) * C + c := by ring
  have hm_lt : ((b * H + i) * W + j) * C + c < B * (H * W) * C := by
    rw [hm_eq]; exact addMulLt htok hc
  simp only [vitFfnPart, ha, entryOpt, Option.map_some', Tensor.entry]
  rw [getD_ofFn _ _ hk_lt]
  show some (vitOutEntry gelu P B C H W a.data
    (((b * C + c) * H + i) * W + j)) = _
  refine congrArg some ?_
  unfold vitOutEntry
  simp only
  rw [show (((b * C + c) * H + i) * W + j) / (C * (H * W)) = b by
        rw [hk_eq]; exact mulAddDiv _ _ _ hinner,
      show (((b * C + c) * H + i) * W + j) % (C * (H * W)) =
          c * (H * W) + (i * W + j) by
        rw [hk_eq]; exact mulAddMod _ _ _ hinner,
      mulAddDiv _ _ _ hij, mulAddMod _ _ _ hij,
      mulAddDiv _ _ _ hj, mulAddMod _ _ _ hj]
  rw [getD_ofFn _ _ hm_lt]
  show ffnFlatEntry gelu P C H W a.data (((b * H + i) * W + j) * C + c) = _
  unfold ffnFlatEntry
  rw [show (((b * H + i) * W + j) * C + c) / C = b * (H * W) + (i * W + j) by
        rw [hm_eq]; exact mulAddDiv _ _ _ hc,
      show (((b * H + i) * W + j) * C + c) % C = c by
        rw [hm_eq]; exact mulAddMod _ _ _ hc]
  rfl

/-- C2, amended: the output of the attention-block tail at spatial position
`(i, j)` is a function of the width-`C` chunk at index `i*W + j` of the
`(height, channel, width)`-ordered flattening of the attended map (the token
that `permute(0,2,1,3).view(B, H*W, C)` actually produces), not of the
channel fibre at `(i, j)`: whenever two attended maps agree on that chunk,
all output channels at `(i, j)` agree. -/
theorem c2_ffn_token_locality (gelu : ℚ → ℚ) (P : FfnParams)
    (B C H W : ℕ) (a a' : Tensor)
    (ha : a.shape = [B, C, H, W]) (ha' : a'.shape = [B, C, H, W])
    (b i j : ℕ) (hb : b < B) (hi : i < H) (hj : j < W)
    (hagree : ∀ q, q < C →
      tokenEntry a.data C H W b i j q = tokenEntry a'.data C H W b i j q) :
    ∀ c, c < C →
      entryOpt (vitFfnPart gelu P a) (((b * C + c) * H + i) * W + j) =
      entryOpt (vitFfnPart gelu P a') (((b * C + c) * H + i) * W + j) := by
  intro c hc
  rw [vitFfnPart_entry gelu P B C H W a ha b c i j hb hc hi hj,
    vitFfnPart_entry gelu P B C H W a' ha' b c i j hb hc hi hj]
  exact congrArg some (ffnApply_congr gelu C P _ _ hagree c)

/-- Identity-shaped feed-forward parameters: identity weight matrices, zero
biases. -/
def identityFfnParams : FfnParams :=
  ⟨fun i j => if i = j then 1 else 0, fun _ => 0,
   fun i j => if i = j then 1 else 0, fun _ => 0⟩

/-- With identity weights and zero biases the feed-forward returns the
activation of the selected component. -/
theorem ffnApply_identity (gelu : ℚ → ℚ) (C : ℕ) (v : ℕ → ℚ) (i : ℕ)
    (hi : i < C) :
    ffnApply gelu C identityFfnParams v i = gelu (v i) := by
  unfold ffnApply identityFfnParams
  simp only [ite_mul, one_mul, zero_mul, Finset.sum_ite_eq,
    Finset.mem_range, add_zero, hi, if_true]

/-- C2, witness for the amended theorem: a concrete instance where the
agreement hypothesis holds and the conclusion is produced by the theorem. -/
theorem c2_ffn_token_locality_witness :
    entryOpt (vitFfnPart id identityFfnParams ⟨[1, 2, 1, 2], [5, 6, 7, 8]⟩)
        (((0 * 2 + 1) * 1 + 0) * 2 + 0) =
      entryOpt (vitFfnPart id identityFfnParams ⟨[1, 2, 1, 2], [5, 6, 7, 9]⟩)
        (((0 * 2 + 1) * 1 + 0) * 2 + 0) :=
  c2_ffn_token_locality id identityFfnParams 1 2 1 2
    ⟨[1, 2, 1, 2], [5, 6, 7, 8]⟩ ⟨[1, 2, 1, 2], [5, 6, 7, 9]⟩ rfl rfl
    0 0 0 (by decide) (by decide) (by decide)
    (by intro q hq; interval_cases q <;> rfl) 1 (by decide)

/-- C2, counterexample to the claim as stated: with the identity
feed-forward and identity activation, the attended maps
`A = [0,0,0,0]` and `A' = [0,1,0,0]` (shape `(1,2,1,2)`) agree on the whole
channel fibre at spatial position `(0, 0)`, yet the block outputs at
`(0, 0)` differ in channel 1 — line 125's `permute(0,2,1,3).view(B, H*W,
C)` flattens in `(H, C, W)` order, so the token of position `(0,0)` contains
the value of channel 0 at position `(0,1)`. -/
theorem c2_counterexample :
    ¬ (∀ (gelu : ℚ → ℚ) (P : FfnParams) (B C H W : ℕ) (a a' : Tensor),
        a.shape = [B, C, H, W] → a'.shape = [B, C, H, W] →
        ∀ i j, i < H → j < W →
        (∀ b, b < B → ∀ c, c < C →
          a.entry (((b * C + c) * H + i) * W + j) =
          a'.entry (((b * C + c) * H + i) * W + j)) →
        ∀ b, b < B → ∀ c, c < C →
          entryOpt (vitFfnPart gelu P a) (((b * C + c) * H + i) * W + j) =
          entryOpt (vitFfnPart gelu P a') (((b * C + c) * H + i) * W + j)) := by
  intro hclaim
  have h := hclaim id identityFfnParams 1 2 1 2
    ⟨[1, 2, 1, 2], [0, 0, 0, 0]⟩ ⟨[1, 2, 1, 2], [0, 1, 0, 0]⟩ rfl rfl
    0 0 (by decide) (by decide)
    (by intro b hb c hc; interval_cases b <;> interval_cases c <;> rfl)
    0 (by decide) 1 (by decide)
  rw [vitFfnPart_entry id identityFfnParams 1 2 1 2 _ rfl 0 1 0 0
        (by decide) (by decide) (by decide) (by decide),
      vitFfnPart_entry id identityFfnParams 1 2 1 2 _ rfl 0 1 0 0
        (by decide) (by decide) (by decide) (by decide),
      ffnApply_identity id 2 _ 1 (by decide),
      ffnApply_identity id 2 _ 1 (by decide)] at h
  have hval : tokenEntry [(0 : ℚ), 0, 0, 0] 2 1 2 0 0 0 1 = 0 := rfl
  have hval' : tokenEntry [(0 : ℚ), 1, 0, 0] 2 1 2 0 0 0 1 = 1 := rfl
  rw [hval, hval'] at h
  exact absurd (Option.some.injEq _ _ ▸ h) (by norm_num)

/-! ### Value-level recurrent block (src lines 131-149) -/

/-- Parameters of the single-layer `nn.LSTM`: per gate (input `i`, forget
`f`, cell `g`, output `o`) a weight matrix against the input, a weight
matrix against the hidden state, and the two PyTorch bias vectors. -/
structure LSTMParams where
  inputSize : ℕ
  hiddenSize : ℕ
  w_ii : ℕ → ℕ → ℚ
  w_if : ℕ → ℕ → ℚ
  w_ig : ℕ → ℕ → ℚ
  w_io : ℕ → ℕ → ℚ
  w_hi : ℕ → ℕ → ℚ
  w_hf : ℕ → ℕ → ℚ
  w_hg : ℕ → ℕ → ℚ
  w_ho : ℕ → ℕ → ℚ
  b_ii : ℕ → ℚ
  b_if : ℕ → ℚ
  b_ig : ℕ → ℚ
  b_io : ℕ → ℚ
  b_hi : ℕ → ℚ
  b_hf : ℕ → ℚ
  b_hg : ℕ → ℚ
  b_ho : ℕ → ℚ

/-- Matrix-vector product over the first `m` coordinates. -/
def matVec (w : ℕ → ℕ → ℚ) (m : ℕ) (v : ℕ → ℚ) (i : ℕ) : ℚ :=
  ∑ j in Finset.range m, w i j * v j

/-- One LSTM cell step (PyTorch equations):
`i = σ(W_ii x + b_ii + W_hi h + b_hi)`, likewise `f` and `o`, the cell
candidate `g` with `tanh`, then `c' = f⊙c + i⊙g` and `h' = o⊙tanh(c')`.
The activations `σ` (sigmoid) and `τ` (tanh) are function parameters. -/
def lstmCell (σ τ : ℚ → ℚ) (p : LSTMParams) (x h c : ℕ → ℚ) :
    (ℕ → ℚ) × (ℕ → ℚ) :=
  let gi := fun k => σ (matVec p.w_ii p.inputSize x k + p.b_ii k +
    matVec p.w_hi p.hiddenSize h k + p.b_hi k)
  let gf := fun k => σ (matVec p.w_if p.inputSize x k + p.b_if k +
    matVec p.w_hf p.hiddenSize h k + p.b_hf k)
  let gg := fun k => τ (matVec p.w_ig p.inputSize x k + p.b_ig k +
    matVec p.w_hg p.hiddenSize h k + p.b_hg k)
  let go := fun k => σ (matVec p.w_io p.inputSize x k + p.b_io k +
    matVec p.w_ho p.hiddenSize h k + p.b_ho k)
  let c2 := fun k => gf k * c k + gi k * gg k
  (fun k => go k * τ (c2 k), c2)

/-- The all-zero LSTM state `(h0, c0)` that `nn.LSTM` uses when it is called
without an explicit initial state. -/
def lstmZeroState : (ℕ → ℚ) × (ℕ → ℚ) := (fun _ => 0, fun _ => 0)

/-- Run the LSTM for `T` steps on the input sequence `xs` from state `s`,
collecting the hidden state after every step (the LSTM's output
sequence). -/
def lstmRun (σ τ : ℚ → ℚ) (p : LSTMParams) (xs : ℕ → ℕ → ℚ) (t : ℕ) :
    ℕ → (ℕ → ℚ) × (ℕ → ℚ) → List (ℕ → ℚ)
  | 0, _ => []
  | T + 1, s =>
      let s2 := lstmCell σ τ p (xs t) s.1 s.2
      s2.1 :: lstmRun σ τ p xs (t + 1) T s2

/-- A call `self.lstm(input)` of the `nn.LSTM` module: when no initial
state is passed (`hx = none`, as in src line 145) the run starts from the
all-zero state; the module itself carries no state across calls. -/
def nnLSTMCall (σ τ : ℚ → ℚ) (p : LSTMParams) (xs : ℕ → ℕ → ℚ) (T : ℕ)
    (hx : Option ((ℕ → ℚ) × (ℕ → ℚ))) : List (ℕ → ℚ) :=
  lstmRun σ τ p xs 0 T (hx.getD lstmZeroState)

/-- Flat data of the recurrent block output: `x_recurrent.view(batch,
timesteps, hidden_dim, im_size, im_size)` (src line 148) regroups the
`(B, T, hiddenSize)` LSTM output without moving data, so entry
`(b, s, k)` is coordinate `k` of the hidden state after step `s` of the run
on batch row `b`'s flattened-and-repeated input (src lines 143-145). -/
def recurrentOut (σ τ : ℚ → ℚ) (p : LSTMParams) (T B CHW : ℕ)
    (d : List ℚ) : List ℚ :=
  List.ofFn (n := B * (T * p.hiddenSize)) fun idx =>
    let b := (idx : ℕ) / (T * p.hiddenSize)
    let r := (idx : ℕ) % (T * p.hiddenSize)
    let s := r / p.hiddenSize
    let k := r % p.hiddenSize
    ((nnLSTMCall σ τ p (fun _ => fun j => d.getD (b * CHW + j) 0) T
      none).getD s (fun _ => 0)) k

/-- `RecurrentBlock.forward` (src lines 141-149): flatten the 4D input to
`(B, C*H*W)`, repeat it `timesteps` times, feed the repeated sequence to the
LSTM (which raises unless the feature count equals its `input_size`), and
view the output as `(B, timesteps, hidden_dim, im_size, im_size)` (which
raises unless the LSTM hidden size equals `hidden_dim * im_size²`; in the
source both equalities hold by construction of `__init__`). -/
def recurrentBlockForward (σ τ : ℚ → ℚ) (p : LSTMParams)
    (timesteps hiddenDim imSize : ℕ) (x : Tensor) : Option Tensor :=
  match x.shape with
  | [B, C, H, W] =>
      if C * (H * W) = p.inputSize ∧
          p.hiddenSize = hiddenDim * (imSize * imSize) then
        some ⟨[B, timesteps, hiddenDim, imSize, imSize],
          recurrentOut σ τ p timesteps B (C * (H * W)) x.data⟩
      else none
  | _ => none

/-- C4, amended: the recurrent block's LSTM call passes no initial state,
so every forward call runs from the all-zero `(h0, c0)` (no cross-call
memory), and the forward pass is deterministic: equal inputs give equal
outputs.  The injectivity half of the claim is refuted separately by
`c4_counterexample`. -/
theorem c4_recurrent_reset_deterministic (σ τ : ℚ → ℚ) (p : LSTMParams)
    (T hd im : ℕ) (xs : ℕ → ℕ → ℚ) (x y : Tensor) (hxy : x = y) :
    nnLSTMCall σ τ p xs T none = lstmRun σ τ p xs 0 T lstmZeroState ∧
    recurrentBlockForward σ τ p T hd im x =
      recurrentBlockForward σ τ p T hd im y :=
  ⟨rfl, by rw [hxy]⟩

/-- C4, witness: the amended theorem applied at a concrete parameter set
and input. -/
theorem c4_recurrent_reset_deterministic_witness :
    nnLSTMCall id id
        ⟨1, 1, fun _ _ => 0, fun _ _ => 0, fun _ _ => 0, fun _ _ => 0,
         fun _ _ => 0, fun _ _ => 0, fun _ _ => 0, fun _ _ => 0,
         fun _ => 0, fun _ => 0, fun _ => 0, fun _ => 0,
         fun _ => 0, fun _ => 0, fun _ => 0, fun _ => 0⟩
        (fun _ _ => 5) 1 none =
      lstmRun id id
        ⟨1, 1, fun _ _ => 0, fun _ _ => 0, fun _ _ => 0, fun _ _ => 0,
         fun _ _ => 0, fun _ _ => 0, fun _ _ => 0, fun _ _ => 0,
         fun _ => 0, fun _ => 0, fun _ => 0, fun _ => 0,
         fun _ => 0, fun _ => 0, fun _ => 0, fun _ => 0⟩
        (fun _ _ => 5) 0 1 lstmZeroState ∧
    recurrentBlockForward id id
        ⟨1, 1, fun _ _ => 0, fun _ _ => 0, fun _ _ => 0, fun _ _ => 0,
         fun _ _ => 0, fun _ _ => 0, fun _ _ => 0, fun _ _ => 0,
         fun _ => 0, fun _ => 0, fun _ => 0, fun _ => 0,
         fun _ => 0, fun _ => 0, fun _ => 0, fun _ => 0⟩
        1 1 1 ⟨[1, 1, 1, 1], [7]⟩ =
      recurrentBlockForward id id
        ⟨1, 1, fun _ _ => 0, fun _ _ => 0, fun _ _ => 0, fun _ _ => 0,
         fun _ _ => 0, fun _ _ => 0, fun _ _ => 0, fun _ _ => 0,
         fun _ => 0, fun _ => 0, fun _ => 0, fun _ => 0,
         fun _ => 0, fun _ => 0, fun _ => 0, fun _ => 0⟩
        1 1 1 ⟨[1, 1, 1, 1], [7]⟩ :=
  c4_recurrent_reset_deterministic id id _ 1 1 1 (fun _ _ => 5)
    ⟨[1, 1, 1, 1], [7]⟩ ⟨[1, 1, 1, 1], [7]⟩ rfl

/-- The all-zero LSTM parameter set (sizes 1/1). -/
def zeroLSTMParams : LSTMParams :=
  ⟨1, 1, fun _ _ => 0, fun _ _ => 0, fun _ _ => 0, fun _ _ => 0,
   fun _ _ => 0, fun _ _ => 0, fun _ _ => 0, fun _ _ => 0,
   fun _ => 0, fun _ => 0, fun _ => 0, fun _ => 0,
   fun _ => 0, fun _ => 0, fun _ => 0, fun _ => 0⟩

/-- With all-zero weights and biases the cell ignores its input vector. -/
theorem lstmCell_zero_indep (x x2 h c : ℕ → ℚ) :
    lstmCell id id zeroLSTMParams x h c = lstmCell id id zeroLSTMParams x2 h c := by
  unfold lstmCell zeroLSTMParams matVec
  simp

/-- With all-zero weights and biases the whole run ignores the input
sequence. -/
theorem lstmRun_zero_indep (xs xs2 : ℕ → ℕ → ℚ) (t T : ℕ)
    (s : (ℕ → ℚ) × (ℕ → ℚ)) :
    lstmRun id id zeroLSTMParams xs t T s =
      lstmRun id id zeroLSTMParams xs2 t T s := by
  induction T generalizing t s with
  | zero => rfl
  | succ T ih =>
      show (lstmCell id id zeroLSTMParams (xs t) s.1 s.2).1 ::
          lstmRun id id zeroLSTMParams xs (t + 1) T
            (lstmCell id id zeroLSTMParams (xs t) s.1 s.2) = _
      rw [lstmCell_zero_indep (xs t) (xs2 t) s.1 s.2]
      exact congrArg _ (ih (t + 1) _)

/-- C4, counterexample to the claim as stated: with all-zero LSTM weights
the recurrent block maps the two different single-frame inputs `[0]` and
`[1]` (shape `(1,1,1,1)`) to the same output sequence — distinct inputs do
not always produce distinct outputs. -/
theorem c4_counterexample :
    (Tensor.mk [1, 1, 1, 1] [0] ≠ Tensor.mk [1, 1, 1, 1] [1]) ∧
    recurrentBlockForward id id zeroLSTMParams 1 1 1 ⟨[1, 1, 1, 1], [0]⟩ =
      recurrentBlockForward id id zeroLSTMParams 1 1 1 ⟨[1, 1, 1, 1], [1]⟩ := by
  refine ⟨by decide, ?_⟩
  show (if 1 * (1 * 1) = zeroLSTMParams.inputSize ∧
        zeroLSTMParams.hiddenSize = 1 * (1 * 1) then
      some (Tensor.mk [1, 1, 1, 1, 1]
        (recurrentOut id id zeroLSTMParams 1 1 (1 * (1 * 1)) [0]))
    else none) =
    (if 1 * (1 * 1) = zeroLSTMParams.inputSize ∧
        zeroLSTMParams.hiddenSize = 1 * (1 * 1) then
      some (Tensor.mk [1, 1, 1, 1, 1]
        (recurrentOut id id zeroLSTMParams 1 1 (1 * (1 * 1)) [1]))
    else none)
  rw [if_pos ⟨by decide, by decide⟩, if_pos ⟨by decide, by decide⟩]
  refine congrArg some (congrArg (Tensor.mk _) ?_)
  unfold recurrentOut nnLSTMCall
  refine congrArg List.ofFn (funext fun idx => ?_)
  exact congrArg
    (fun L => (List.getD L ((idx : ℕ) % (1 * zeroLSTMParams.hiddenSize) /
      zeroLSTMParams.hiddenSize) (fun _ => 0))
      ((idx : ℕ) % (1 * zeroLSTMParams.hiddenSize) % zeroLSTMParams.hiddenSize))
    (lstmRun_zero_indep _ _ 0 1 (Option.getD none lstmZeroState))

/-! ### Composite loss (src lines 176-196) -/

/-- Row-major flattening of a multi-index. -/
def flatIdx : List ℕ → List ℕ → ℕ
  | _ :: ss, i :: is => i * ss.prod + flatIdx ss is
  | _, _ => 0

/-- Row-major decomposition of a flat index. -/
def multiIdx : List ℕ → ℕ → List ℕ
  | [], _ => []
  | _ :: ss, k => k / ss.prod :: multiIdx ss (k % ss.prod)

/-- Numpy/PyTorch broadcast read: a dimension of extent 1 is always read at
index 0. -/
def bsel (s : List ℕ) (is : List ℕ) : List ℕ :=
  List.zipWith (fun d i => if d = 1 then 0 else i) s is

/-- Two equal-rank shapes broadcast when every dimension pair agrees or one
of the two extents is 1. -/
def broadcastOK (s t : List ℕ) : Prop :=
  s.length = t.length ∧ ∀ p ∈ List.zip s t, p.1 = p.2 ∨ p.1 = 1 ∨ p.2 = 1

instance (s t : List ℕ) : Decidable (broadcastOK s t) := by
  unfold broadcastOK
  infer_instance

/-- The broadcast result shape. -/
def bshape (s t : List ℕ) : List ℕ := List.zipWith max s t

/-- `F.mse_loss` with the default mean reduction (src line 185): PyTorch
broadcasts the two tensors to a common shape — emitting only a warning when
the broadcastable sizes differ, and raising when they are not broadcastable
— then averages the squared differences over the broadcast shape. -/
def mseLoss (a b : Tensor) : Option ℚ :=
  if broadcastOK a.shape b.shape then
    some ((∑ k in Finset.range (bshape a.shape b.shape).prod,
      (a.data.getD
          (flatIdx a.shape (bsel a.shape (multiIdx (bshape a.shape b.shape) k))) 0 -
       b.data.getD
          (flatIdx b.shape (bsel b.shape (multiIdx (bshape a.shape b.shape) k))) 0) ^ 2) /
      (bshape a.shape b.shape).prod)
  else none

/-- SSIM stability constants for `data_range = 1.0`: `C1 = (0.01 * 1.0)²`
and `C2 = (0.03 * 1.0)²`. -/
def ssimC1 : ℚ := 1 / 10000

/-- See `ssimC1`. -/
def ssimC2 : ℚ := 9 / 10000

/-- Reflection-padding index map for pad 5 (the 11×11 kernel): padded
coordinate `u ∈ [0, n+10)` reads source coordinate `|u - 5|`, reflected
without edge repetition at the upper border, as `F.pad(·, mode="reflect")`
does. -/
def reflectIdx (n u : ℕ) : ℕ :=
  if u < 5 then 5 - u
  else if u - 5 < n then u - 5
  else 2 * n - 2 - (u - 5)

/-- Pixel read of a `(B, C, H, W)` tensor's flat data. -/
def pixAt (d : List ℚ) (C H W b c h w : ℕ) : ℚ :=
  d.getD (((b * C + c) * H + h) * W + w) 0

/-- Kernel-weighted local average of the reflection-padded image `f` at
output position `(i, j)` (valid convolution over the padded image, kernel
size 11). -/
def localMean (kw : ℕ → ℕ → ℚ) (H W : ℕ) (f : ℕ → ℕ → ℚ) (i j : ℕ) : ℚ :=
  ∑ p in Finset.range 11, ∑ q in Finset.range 11,
    kw p q * f (reflectIdx H (i + p)) (reflectIdx W (j + q))

/-- SSIM map value at one position `(b, c, i, j)`: local means `μx, μy`,
variances `σx² = μ(x·x) − μx²`, covariance `σxy = μ(x·y) − μx·μy`, combined
as `((2μxμy + C1)(2σxy + C2)) / ((μx² + μy² + C1)(σx² + σy² + C2))`. -/
def ssimMapAt (kw : ℕ → ℕ → ℚ) (C H W : ℕ) (dx dy : List ℚ)
    (b c i j : ℕ) : ℚ :=
  let x := fun u v => pixAt dx C H W b c u v
  let y := fun u v => pixAt dy C H W b c u v
  let mx := localMean kw H W x i j
  let my := localMean kw H W y i j
  let mxx := localMean kw H W (fun u v => x u v * x u v) i j
  let myy := localMean kw H W (fun u v => y u v * y u v) i j
  let mxy := localMean kw H W (fun u v => x u v * y u v) i j
  ((2 * mx * my + ssimC1) * (2 * (mxy - mx * my) + ssimC2)) /
    ((mx * mx + my * my + ssimC1) *
      ((mxx - mx * mx) + (myy - my * my) + ssimC2))

/-- Crop-and-average of the SSIM map: positions `(i+5, j+5)` for
`i < H-10`, `j < W-10`, averaged over batch, channel and the cropped
plane. -/
def ssimVal (kw : ℕ → ℕ → ℚ) (B C H W : ℕ) (dx dy : List ℚ) : ℚ :=
  (∑ b in Finset.range B, ∑ c in Finset.range C,
    ∑ i in Finset.range (H - 10), ∑ j in Finset.range (W - 10),
      ssimMapAt kw C H W dx dy b c (i + 5) (j + 5)) /
  (B * C * (H - 10) * (W - 10))

/-- `torchmetrics` `StructuralSimilarityIndexMeasure(data_range=1.0)` on a
pair of 4D frames, with the Gaussian 11×11 kernel weights abstracted as the
parameter `kw`: raises if the two shapes differ or are not `(B, C, H, W)`
with `B, C ≥ 1` (a zero batch breaks the internal reshape, a zero channel
count the grouped convolution) or if a spatial extent is ≤ 5 (reflection
padding must be smaller than the input); otherwise reflection-pads by 5,
convolves, crops 5 border pixels and averages the SSIM map.  In exact
arithmetic an empty crop (`H ≤ 10` or `W ≤ 10`) yields the `0/0 = 0` junk
value where floats give `NaN` — in both semantics a value is returned, not
an exception. -/
def ssimTM (kw : ℕ → ℕ → ℚ) (x y : Tensor) : Option ℚ :=
  if x.shape = y.shape ∧ x.shape.length = 4 then
    let B := x.shape.getD 0 0
    let C := x.shape.getD 1 0
    let H := x.shape.getD 2 0
    let W := x.shape.getD 3 0
    if 1 ≤ B ∧ 1 ≤ C ∧ 5 < H ∧ 5 < W then
      some (ssimVal kw B C H W x.data y.data)
    else none
  else none

/-- `output[:, t]` (src lines 189-190) for a tensor of shape
`B :: T :: rest`: raises (`IndexError`) when `t ≥ T`; otherwise gathers the
`t`-th time slice. -/
def sliceT (a : Tensor) (t : ℕ) : Option Tensor :=
  match a.shape with
  | B :: T :: rest =>
      if t < T then
        some ⟨B :: rest, List.ofFn (n := B * rest.prod) fun k =>
          a.data.getD
            (((k : ℕ) / rest.prod * T + t) * rest.prod +
              (k : ℕ) % rest.prod) 0⟩
      else none
  | _ => none

/-- The accumulation loop of `CustomLoss.forward` (src lines 187-192): for
each listed `t`, slice prediction and target at time `t` and record
`1 - ssim` of the two frames. -/
def ssimLossList (kw : ℕ → ℕ → ℚ) (a b : Tensor) :
    List ℕ → Option (List ℚ)
  | [] => some []
  | t :: ts => do
      let sa ← sliceT a t
      let sb ← sliceT b t
      let v ← ssimTM kw sa sb
      let rest ← ssimLossList kw a b ts
      some ((1 - v) :: rest)

/-- `CustomLoss.forward` (src lines 183-196): `F.mse_loss` of the full
tensors; then, for `t` ranging over `output.size(1)`, one minus the SSIM of
the `t`-th frames; `torch.stack` of the collected values raises on an empty
list; otherwise the result is `mse_weight * mse + ssim_weight * mean`. -/
def customLossForward (kw : ℕ → ℕ → ℚ) (mw sw : ℚ) (a b : Tensor) :
    Option ℚ := do
  let m ← mseLoss a b
  let tls ← ssimLossList kw a b (List.range (a.shape.getD 1 0))
  if tls.length = 0 then none
  else some (mw * m + sw * (tls.sum / tls.length))

/-- Broadcast compatibility is symmetric. -/
theorem broadcastOK_swap (s t : List ℕ) (h : broadcastOK s t) :
    broadcastOK t s := by
  obtain ⟨h1, h2⟩ := h
  refine ⟨h1.symm, fun p hp => ?_⟩
  rw [← List.zip_swap] at hp
  obtain ⟨q, hq, rfl⟩ := List.mem_map.mp hp
  rcases h2 q hq with h | h | h <;> simp [Prod.swap] <;> omega

/-- The broadcast shape is symmetric. -/
theorem bshape_symm (s t : List ℕ) : bshape s t = bshape t s :=
  List.zipWith_comm_of_comm max Nat.max_comm s t

/-- `F.mse_loss` is symmetric in its two arguments. -/
theorem mseLoss_symm (a b : Tensor) : mseLoss a b = mseLoss b a := by
  unfold mseLoss
  by_cases hbc : broadcastOK a.shape b.shape
  · rw [if_pos hbc, if_pos (broadcastOK_swap _ _ hbc),
      bshape_symm b.shape a.shape]
    refine congrArg some (congrArg (· / _) ?_)
    exact Finset.sum_congr rfl fun k _ => by ring
  · rw [if_neg hbc, if_neg fun h => hbc (broadcastOK_swap _ _ h)]

/-- The SSIM map value is symmetric in the two images. -/
theorem ssimMapAt_symm (kw : ℕ → ℕ → ℚ) (C H W : ℕ) (dx dy : List ℚ)
    (b c i j : ℕ) :
    ssimMapAt kw C H W dx dy b c i j = ssimMapAt kw C H W dy dx b c i j := by
  unfold ssimMapAt
  simp only
  have hxy : localMean kw H W
      (fun u v => pixAt dy C H W b c u v * pixAt dx C H W b c u v) i j =
      localMean kw H W
      (fun u v => pixAt dx C H W b c u v * pixAt dy C H W b c u v) i j := by
    unfold localMean
    exact Finset.sum_congr rfl fun p _ =>
      Finset.sum_congr rfl fun q _ => by ring
  rw [hxy]
  ring

/-- The crop-and-average SSIM is symmetric in the two images. -/
theorem ssimVal_symm (kw : ℕ → ℕ → ℚ) (B C H W : ℕ) (dx dy : List ℚ) :
    ssimVal kw B C H W dx dy = ssimVal kw B C H W dy dx := by
  unfold ssimVal
  refine congrArg (· / _) ?_
  exact Finset.sum_congr rfl fun b _ => Finset.sum_congr rfl fun c _ =>
    Finset.sum_congr rfl fun i _ => Finset.sum_congr rfl fun j _ =>
      ssimMapAt_symm kw C H W dx dy b c (i + 5) (j + 5)

/-- The torchmetrics SSIM call is symmetric in the two frames (both
evaluate, or both raise). -/
theorem ssimTM_symm (kw : ℕ → ℕ → ℚ) (x y : Tensor) :
    ssimTM kw x y = ssimTM kw y x := by
  unfold ssimTM
  by_cases hsh : x.shape = y.shape
  · by_cases hlen : x.shape.length = 4
    · have hlen2 : y.shape.length = 4 := by rw [← hsh]; exact hlen
      rw [if_pos ⟨hsh, hlen⟩]
      rw [if_pos (show y.shape = x.shape ∧ y.shape.length = 4 from
        ⟨hsh.symm, hlen2⟩)]
      rw [hsh]
      by_cases hg : 1 ≤ y.shape.getD 0 0 ∧ 1 ≤ y.shape.getD 1 0 ∧
          5 < y.shape.getD 2 0 ∧ 5 < y.shape.getD 3 0
      · rw [if_pos hg, if_pos hg]
        exact congrArg some (ssimVal_symm kw _ _ _ _ x.data y.data)
      · rw [if_neg hg, if_neg hg]
    · rw [if_neg fun hcon => hlen hcon.2,
        if_neg fun hcon => hlen (by rw [hsh]; exact hcon.2)]
  · rw [if_neg fun hcon => hsh hcon.1, if_neg fun hcon => hsh hcon.1.symm]

/-- The per-time-step SSIM loop is symmetric in prediction and target. -/
theorem ssimLossList_symm (kw : ℕ → ℕ → ℚ) (a b : Tensor) (ts : List ℕ) :
    ssimLossList kw a b ts = ssimLossList kw b a ts := by
  induction ts with
  | nil => rfl
  | cons t ts ih =>
      unfold ssimLossList
      cases hsa : sliceT a t with
      | none => cases hsb : sliceT b t <;> simp
      | some sa =>
          cases hsb : sliceT b t with
          | none => simp
          | some sb =>
              simp only [Option.bind_eq_bind, Option.some_bind]
              rw [ssimTM_symm kw sa sb, ih]

/-- C10: the composite loss is symmetric: for equal-shape inputs,
`loss(a, b) = loss(b, a)` — the MSE term, each per-time-step SSIM term, and
the final weighted combination are all symmetric (and when the loss raises,
it raises on both argument orders). -/
theorem c10_loss_symmetric (kw : ℕ → ℕ → ℚ) (mw sw : ℚ) (a b : Tensor)
    (hsh : a.shape = b.shape) :
    customLossForward kw mw sw a b = customLossForward kw mw sw b a := by
  unfold customLossForward
  rw [mseLoss_symm a b, ssimLossList_symm kw a b, hsh]

/-- C10, witness: the symmetry theorem applied at a concrete pair. -/
theorem c10_loss_symmetric_witness :
    customLossForward (fun _ _ => 0) (1 / 2) (1 / 2)
        ⟨[1, 1, 1, 1, 1], [3]⟩ ⟨[1, 1, 1, 1, 1], [4]⟩ =
      customLossForward (fun _ _ => 0) (1 / 2) (1 / 2)
        ⟨[1, 1, 1, 1, 1], [4]⟩ ⟨[1, 1, 1, 1, 1], [3]⟩ :=
  c10_loss_symmetric (fun _ _ => 0) (1 / 2) (1 / 2)
    ⟨[1, 1, 1, 1, 1], [3]⟩ ⟨[1, 1, 1, 1, 1], [4]⟩ rfl

/-- Pairs drawn from a list zipped with itself are diagonal. -/
theorem zip_self_eq (s : List ℕ) : ∀ p ∈ List.zip s s, p.1 = p.2 := by
  induction s with
  | nil => intro p hp; cases hp
  | cons x xs ih =>
      intro p hp
      rcases List.mem_cons.mp hp with rfl | hp
      · rfl
      · exact ih p hp

/-- Broadcasting a shape with itself. -/
theorem bshape_self (s : List ℕ) : bshape s s = s := by
  induction s with
  | nil => rfl
  | cons x xs ih =>
      show max x x :: bshape xs xs = x :: xs
      rw [Nat.max_self, ih]

/-- Inside the index range, broadcast selection on the shape itself is the
identity (a dimension of extent 1 only ever carries index 0). -/
theorem bsel_multiIdx (s : List ℕ) (k : ℕ) (h : k < s.prod) :
    bsel s (multiIdx s k) = multiIdx s k := by
  induction s generalizing k with
  | nil => rfl
  | cons d ss ih =>
      have hP : 0 < ss.prod := by
        rcases Nat.eq_zero_or_pos ss.prod with h0 | h1
        · rw [List.prod_cons, h0, mul_zero] at h; omega
        · exact h1
      show (if d = 1 then 0 else k / ss.prod) ::
          bsel ss (multiIdx ss (k % ss.prod)) =
          k / ss.prod :: multiIdx ss (k % ss.prod)
      rw [ih (k % ss.prod) (Nat.mod_lt _ hP)]
      by_cases hd : d = 1
      · rw [if_pos hd]
        subst hd
        rw [List.prod_cons, one_mul] at h
        rw [Nat.div_eq_of_lt h]
      · rw [if_neg hd]

/-- Flattening inverts decomposition inside the index range. -/
theorem flatIdx_multiIdx (s : List ℕ) (k : ℕ) (h : k < s.prod) :
    flatIdx s (multiIdx s k) = k := by
  induction s generalizing k with
  | nil =>
      have hk : k = 0 := by simpa using h
      subst hk; rfl
  | cons d ss ih =>
      have hP : 0 < ss.prod := by
        rcases Nat.eq_zero_or_pos ss.prod with h0 | h1
        · rw [List.prod_cons, h0, mul_zero] at h; omega
        · exact h1
      show k / ss.prod * ss.prod + flatIdx ss (multiIdx ss (k % ss.prod)) = k
      rw [ih _ (Nat.mod_lt _ hP)]
      exact Nat.div_add_mod' k ss.prod

/-- The spec-side "plain mean-squared-error" over the flat data of two
equal-shape tensors. -/
def plainMSE (a b : Tensor) : ℚ :=
  (∑ k in Finset.range a.shape.prod,
    (a.data.getD k 0 - b.data.getD k 0) ^ 2) / a.shape.prod

/-- On equal shapes, `F.mse_loss` is the plain mean-squared-error. -/
theorem mseLoss_eq_of_shape (a b : Tensor) (hsh : a.shape = b.shape) :
    mseLoss a b = some (plainMSE a b) := by
  unfold mseLoss plainMSE
  rw [if_pos (show broadcastOK a.shape b.shape from
    ⟨by rw [hsh], fun p hp =>
      Or.inl (zip_self_eq a.shape p (by rw [← hsh] at hp; exact hp))⟩)]
  rw [← hsh, bshape_self]
  refine congrArg some (congrArg (· / (a.shape.prod : ℚ)) ?_)
  refine Finset.sum_congr rfl fun k hk => ?_
  have hk2 : k < a.shape.prod := Finset.mem_range.mp hk
  rw [bsel_multiIdx _ _ hk2, flatIdx_multiIdx _ _ hk2]

/-- Slicing a `B :: T :: rest` tensor at a valid time index. -/
theorem sliceT_eq (B T : ℕ) (rest : List ℕ) (dd : List ℚ) (t : ℕ)
    (ht : t < T) :
    sliceT ⟨B :: T :: rest, dd⟩ t =
      some ⟨B :: rest, List.ofFn (n := B * rest.prod) fun k =>
        dd.getD (((k : ℕ) / rest.prod * T + t) * rest.prod +
          (k : ℕ) % rest.prod) 0⟩ := by
  show (if t < T then
      some (Tensor.mk (B :: rest) (List.ofFn (n := B * rest.prod) fun k =>
        dd.getD (((k : ℕ) / rest.prod * T + t) * rest.prod +
          (k : ℕ) % rest.prod) 0))
    else none) = _
  rw [if_pos ht]

/-- When prediction and target have 5D shapes agreeing outside the time
dimension, with positive batch and channel counts and spatial sizes large
enough for the reflection padding, every listed time step below both time
extents contributes a value. -/
theorem ssimLossList_range_some (kw : ℕ → ℕ → ℚ) (a b : Tensor)
    (B Ta Tb C H W : ℕ)
    (ha : a.shape = [B, Ta, C, H, W]) (hb : b.shape = [B, Tb, C, H, W])
    (hB : 1 ≤ B) (hC : 1 ≤ C) (hH : 5 < H) (hW : 5 < W)
    (ts : List ℕ) (hts : ∀ t ∈ ts, t < Ta ∧ t < Tb) :
    ∃ l, ssimLossList kw a b ts = some l ∧ l.length = ts.length := by
  induction ts with
  | nil => exact ⟨[], rfl, rfl⟩
  | cons t ts ih =>
      obtain ⟨l, hl, hlen⟩ :=
        ih fun u hu => hts u (List.mem_cons_of_mem _ hu)
      have hta := (hts t (List.mem_cons_self _ _)).1
      have htb := (hts t (List.mem_cons_self _ _)).2
      obtain ⟨sa, da⟩ := a
      obtain ⟨sb, db⟩ := b
      simp only at ha hb
      subst ha hb
      have hssim : ssimTM kw
          ⟨B :: [C, H, W], List.ofFn (n := B * List.prod [C, H, W]) fun k =>
            da.getD (((k : ℕ) / List.prod [C, H, W] * Ta + t) *
              List.prod [C, H, W] + (k : ℕ) % List.prod [C, H, W]) 0⟩
          ⟨B :: [C, H, W], List.ofFn (n := B * List.prod [C, H, W]) fun k =>
            db.getD (((k : ℕ) / List.prod [C, H, W] * Tb + t) *
              List.prod [C, H, W] + (k : ℕ) % List.prod [C, H, W]) 0⟩ =
          some (ssimVal kw B C H W
            (List.ofFn (n := B * List.prod [C, H, W]) fun k =>
              da.getD (((k : ℕ) / List.prod [C, H, W] * Ta + t) *
                List.prod [C, H, W] + (k : ℕ) % List.prod [C, H, W]) 0)
            (List.ofFn (n := B * List.prod [C, H, W]) fun k =>
              db.getD (((k : ℕ) / List.prod [C, H, W] * Tb + t) *
                List.prod [C, H, W] + (k : ℕ) % List.prod [C, H, W]) 0)) := by
        unfold ssimTM
        rw [if_pos (show (B :: [C, H, W] : List ℕ) = B :: [C, H, W] ∧
          (B :: [C, H, W] : List ℕ).length = 4 from ⟨rfl, rfl⟩)]
        simp only [List.getD_cons_zero, List.getD_cons_succ]
        rw [if_pos (show (1 : ℕ) ≤ B ∧ 1 ≤ C ∧ 5 < H ∧ 5 < W from
          ⟨hB, hC, hH, hW⟩)]
      have hstep : ssimLossList kw ⟨[B, Ta, C, H, W], da⟩
          ⟨[B, Tb, C, H, W], db⟩ (t :: ts) =
          some ((1 - ssimVal kw B C H W
            (List.ofFn (n := B * List.prod [C, H, W]) fun k =>
              da.getD (((k : ℕ) / List.prod [C, H, W] * Ta + t) *
                List.prod [C, H, W] + (k : ℕ) % List.prod [C, H, W]) 0)
            (List.ofFn (n := B * List.prod [C, H, W]) fun k =>
              db.getD (((k : ℕ) / List.prod [C, H, W] * Tb + t) *
                List.prod [C, H, W] + (k : ℕ) % List.prod [C, H, W]) 0)) ::
            l) := by
        show Option.bind (sliceT ⟨B :: Ta :: [C, H, W], da⟩ t) (fun sa2 =>
          Option.bind (sliceT ⟨B :: Tb :: [C, H, W], db⟩ t) fun sb2 =>
          Option.bind (ssimTM kw sa2 sb2) fun v =>
          Option.bind (ssimLossList kw ⟨[B, Ta, C, H, W], da⟩
            ⟨[B, Tb, C, H, W], db⟩ ts) fun rest =>
          some ((1 - v) :: rest)) = _
        rw [sliceT_eq B Ta [C, H, W] da t hta,
          sliceT_eq B Tb [C, H, W] db t htb]
        simp only [Option.some_bind]
        rw [hssim]
        simp only [Option.some_bind]
        rw [hl]
        rfl
      exact ⟨_, hstep, by simp [hlen]⟩

/-- C6, amended: with `mse_weight = 1` and `ssim_weight = 0`, on equal 5D
shapes with at least one time step, positive batch and channel counts and
spatial sizes of at least 11 (the SSIM kernel size), the composite loss
equals the plain mean-squared-error; for smaller spatial sizes the SSIM
step raises, and with zero time steps `torch.stack([])` raises, so the loss
does not return the MSE there. -/
theorem c6_loss_eq_mse (kw : ℕ → ℕ → ℚ) (a b : Tensor) (B T C H W : ℕ)
    (ha : a.shape = [B, T, C, H, W]) (hb : b.shape = [B, T, C, H, W])
    (hB : 1 ≤ B) (hC : 1 ≤ C) (hT : 1 ≤ T) (hH : 11 ≤ H) (hW : 11 ≤ W) :
    customLossForward kw 1 0 a b = some (plainMSE a b) := by
  have hrange : ∀ t ∈ List.range (a.shape.getD 1 0), t < T ∧ t < T := by
    rw [ha]
    intro t ht
    exact ⟨List.mem_range.mp ht, List.mem_range.mp ht⟩
  obtain ⟨l, hl, hlen⟩ := ssimLossList_range_some kw a b B T T C H W ha hb
    hB hC (by omega) (by omega) _ hrange
  unfold customLossForward
  rw [mseLoss_eq_of_shape a b (ha.trans hb.symm)]
  show Option.bind (ssimLossList kw a b (List.range (a.shape.getD 1 0)))
    (fun tls => if tls.length = 0 then none
      else some (1 * plainMSE a b + 0 * (tls.sum / tls.length))) =
    some (plainMSE a b)
  rw [hl]
  have hlen0 : ¬ l.length = 0 := by
    rw [hlen, List.length_range, ha]
    show ¬ T = 0
    omega
  show (if l.length = 0 then none
    else some (1 * plainMSE a b + 0 * (l.sum / l.length))) =
    some (plainMSE a b)
  rw [if_neg hlen0, one_mul, zero_mul, add_zero]

/-- C6, witness: the theorem applied at a concrete equal-shape pair of
`(1,1,1,11,11)` tensors. -/
theorem c6_loss_eq_mse_witness :
    customLossForward (fun _ _ => 0) 1 0
        ⟨[1, 1, 1, 11, 11], List.replicate 121 0⟩
        ⟨[1, 1, 1, 11, 11], List.replicate 121 1⟩ =
      some (plainMSE ⟨[1, 1, 1, 11, 11], List.replicate 121 0⟩
        ⟨[1, 1, 1, 11, 11], List.replicate 121 1⟩) :=
  c6_loss_eq_mse (fun _ _ => 0) _ _ 1 1 1 11 11 rfl rfl (by decide)
    (by decide) (by decide) (by decide) (by decide)

/-- C6, counterexample to the claim as stated: on the equal-shape
well-formed pair of `(1,1,1,5,5)` tensors the loss with weights `1, 0`
raises (the SSIM reflection padding needs spatial sizes above 5) instead of
returning the plain mean-squared-error, which exists. -/
theorem c6_counterexample :
    (Tensor.mk [1, 1, 1, 5, 5] (List.replicate 25 (0 : ℚ))).shape =
      (Tensor.mk [1, 1, 1, 5, 5] (List.replicate 25 (1 : ℚ))).shape ∧
    (Tensor.mk [1, 1, 1, 5, 5] (List.replicate 25 (0 : ℚ))).wf ∧
    (Tensor.mk [1, 1, 1, 5, 5] (List.replicate 25 (1 : ℚ))).wf ∧
    customLossForward (fun _ _ => 0) 1 0
        ⟨[1, 1, 1, 5, 5], List.replicate 25 0⟩
        ⟨[1, 1, 1, 5, 5], List.replicate 25 1⟩ = none := by
  refine ⟨rfl, rfl, rfl, ?_⟩
  decide

/-- A successful loop pass produces one value per listed time step. -/
theorem ssimLossList_some_length (kw : ℕ → ℕ → ℚ) (a b : Tensor)
    (ts : List ℕ) (l : List ℚ) (h : ssimLossList kw a b ts = some l) :
    l.length = ts.length := by
  induction ts generalizing l with
  | nil =>
      simp only [ssimLossList, Option.some.injEq] at h
      rw [← h]
      rfl
  | cons t ts ih =>
      unfold ssimLossList at h
      cases hsa : sliceT a t with
      | none => rw [hsa] at h; exact absurd h (by simp)
      | some sa =>
          rw [hsa] at h
          cases hsb : sliceT b t with
          | none => rw [hsb] at h; exact absurd h (by simp)
          | some sb =>
              rw [hsb] at h
              simp only [Option.bind_eq_bind, Option.some_bind] at h
              cases hv : ssimTM kw sa sb with
              | none => rw [hv] at h; exact absurd h (by simp)
              | some v =>
                  rw [hv] at h
                  simp only [Option.some_bind] at h
                  cases hr : ssimLossList kw a b ts with
                  | none => rw [hr] at h; exact absurd h (by simp)
                  | some rest =>
                      rw [hr] at h
                      simp only [Option.some_bind, Option.some.injEq] at h
                      rw [← h]
                      simp [ih rest hr]

/-- A successful loop pass means every listed time step sliced both tensors
and evaluated the SSIM. -/
theorem ssimLossList_some_mem (kw : ℕ → ℕ → ℚ) (a b : Tensor)
    (ts : List ℕ) (l : List ℚ) (h : ssimLossList kw a b ts = some l) :
    ∀ t ∈ ts, ∃ sa sb, sliceT a t = some sa ∧ sliceT b t = some sb ∧
      (ssimTM kw sa sb).isSome := by
  induction ts generalizing l with
  | nil => intro t ht; cases ht
  | cons t ts ih =>
      intro u hu
      unfold ssimLossList at h
      cases hsa : sliceT a t with
      | none => rw [hsa] at h; exact absurd h (by simp)
      | some sa =>
          rw [hsa] at h
          cases hsb : sliceT b t with
          | none => rw [hsb] at h; exact absurd h (by simp)
          | some sb =>
              rw [hsb] at h
              simp only [Option.bind_eq_bind, Option.some_bind] at h
              cases hv : ssimTM kw sa sb with
              | none => rw [hv] at h; exact absurd h (by simp)
              | some v =>
                  rw [hv] at h
                  simp only [Option.some_bind] at h
                  cases hr : ssimLossList kw a b ts with
                  | none => rw [hr] at h; exact absurd h (by simp)
                  | some rest =>
                      rcases List.mem_cons.mp hu with rfl | hu2
                      · exact ⟨sa, sb, hsa, hsb, by rw [hv]; rfl⟩
                      · exact ih rest hr u hu2

/-- Inversion of a successful time slice: the index was in range and the
slice drops the time dimension. -/
theorem sliceT_some_inv (a : Tensor) (t : ℕ) (sa : Tensor) (B T : ℕ)
    (rest : List ℕ) (ha : a.shape = B :: T :: rest)
    (h : sliceT a t = some sa) : t < T ∧ sa.shape = B :: rest := by
  obtain ⟨s, d⟩ := a
  simp only at ha
  subst ha
  by_cases ht : t < T
  · refine ⟨ht, ?_⟩
    rw [sliceT_eq B T rest d t ht] at h
    rw [← Option.some.injEq _ _ |>.mp h]
  · have : sliceT ⟨B :: T :: rest, d⟩ t = none := by
      show (if t < T then _ else none) = none
      rw [if_neg ht]
    rw [this] at h
    exact absurd h (by simp)

/-- A successful SSIM call had equal input shapes. -/
theorem ssimTM_isSome_inv (kw : ℕ → ℕ → ℚ) (x y : Tensor)
    (h : (ssimTM kw x y).isSome) : x.shape = y.shape := by
  unfold ssimTM at h
  by_cases hc : x.shape = y.shape ∧ x.shape.length = 4
  · exact hc.1
  · rw [if_neg hc] at h
    exact absurd h (by simp)

/-- C3, amended: fix 5D prediction and target shapes with positive batch
and channel counts and prediction spatial sizes of at least 6 (so that the
SSIM reflection padding itself cannot fail).  The composite loss returns a
value if and only if the two shapes agree in every dimension except
possibly time, the prediction has at least one time step, and the time
extents either agree or the prediction's is 1 (the silent `F.mse_loss`
broadcast) with a nonzero target extent.  In every other mismatch the loss
raises — but in the broadcast case it silently returns a scalar, contrary
to the claim. -/
theorem c3_loss_success_char (kw : ℕ → ℕ → ℚ) (mw sw : ℚ) (a b : Tensor)
    (B Ta C H W B2 Tb C2 H2 W2 : ℕ)
    (ha : a.shape = [B, Ta, C, H, W]) (hb : b.shape = [B2, Tb, C2, H2, W2])
    (hB : 1 ≤ B) (hC : 1 ≤ C) (hH : 6 ≤ H) (hW : 6 ≤ W) :
    (customLossForward kw mw sw a b).isSome ↔
      (B2 = B ∧ C2 = C ∧ H2 = H ∧ W2 = W ∧ 1 ≤ Ta ∧
        (Tb = Ta ∨ (Ta = 1 ∧ 1 ≤ Tb))) := by
  constructor
  · intro hs
    unfold customLossForward at hs
    cases hm : mseLoss a b with
    | none => rw [hm] at hs; exact absurd hs (by simp)
    | some m =>
        rw [hm] at hs
        cases hl : ssimLossList kw a b (List.range (a.shape.getD 1 0)) with
        | none => rw [hl] at hs; exact absurd hs (by simp)
        | some l =>
            rw [hl] at hs
            simp only [Option.bind_eq_bind, Option.some_bind] at hs
            have hlen0 : ¬ l.length = 0 := by
              intro h0
              rw [if_pos h0] at hs
              exact absurd hs (by simp)
            have hlen := ssimLossList_some_length kw a b _ l hl
            rw [List.length_range, ha] at hlen
            have hTa : 1 ≤ Ta := by
              show 1 ≤ ([B, Ta, C, H, W].getD 1 0)
              omega
            have hTa2 : l.length = Ta := hlen
            have h0mem : (0 : ℕ) ∈ List.range (a.shape.getD 1 0) := by
              rw [ha]
              exact List.mem_range.mpr (by exact hTa)
            obtain ⟨sa, sb, hsa, hsb, hv⟩ :=
              ssimLossList_some_mem kw a b _ l hl 0 h0mem
            obtain ⟨_, hsha⟩ :=
              sliceT_some_inv a 0 sa B Ta [C, H, W] ha hsa
            obtain ⟨hTb0, hshb⟩ :=
              sliceT_some_inv b 0 sb B2 Tb [C2, H2, W2] hb hsb
            have hsheq := ssimTM_isSome_inv kw sa sb hv
            rw [hsha, hshb] at hsheq
            have hdims : B = B2 ∧ C = C2 ∧ H = H2 ∧ W = W2 := by
              simpa using hsheq
            -- every t < Ta sliced b, so Ta ≤ Tb
            have hTab : Ta ≤ Tb := by
              by_contra hcon
              push_neg at hcon
              have hmem : Tb ∈ List.range (a.shape.getD 1 0) := by
                rw [ha]
                exact List.mem_range.mpr (by simpa using hcon)
              obtain ⟨sa2, sb2, hsa2, hsb2, hv2⟩ :=
                ssimLossList_some_mem kw a b _ l hl Tb hmem
              obtain ⟨hT2, _⟩ :=
                sliceT_some_inv b Tb sb2 B2 Tb [C2, H2, W2] hb hsb2
              omega
            -- the mse broadcast constrains the time pair
            have hbc : broadcastOK a.shape b.shape := by
              by_contra hcon
              unfold mseLoss at hm
              rw [if_neg hcon] at hm
              exact absurd hm (by simp)
            obtain ⟨_, hzip⟩ := hbc
            have hTpair : Ta = Tb ∨ Ta = 1 ∨ Tb = 1 := by
              have hmem : (Ta, Tb) ∈ List.zip a.shape b.shape := by
                rw [ha, hb]
                simp [List.zip]
              exact hzip (Ta, Tb) hmem
            refine ⟨hdims.1.symm, hdims.2.1.symm, hdims.2.2.1.symm,
              hdims.2.2.2.symm, hTa, ?_⟩
            omega
  · rintro ⟨rfl, rfl, rfl, rfl, hTa, hT⟩
    have hbc : broadcastOK a.shape b.shape := by
      rw [ha, hb]
      refine ⟨rfl, fun p hp => ?_⟩
      simp only [List.zip, List.zipWith, List.mem_cons,
        List.not_mem_nil, or_false] at hp
      rcases hp with rfl | rfl | rfl | rfl | rfl
      · exact Or.inl rfl
      · omega
      · exact Or.inl rfl
      · exact Or.inl rfl
      · exact Or.inl rfl
    have hm : ∃ m, mseLoss a b = some m := by
      unfold mseLoss
      rw [if_pos hbc]
      exact ⟨_, rfl⟩
    obtain ⟨m, hm⟩ := hm
    have hts : ∀ t ∈ List.range (a.shape.getD 1 0), t < Ta ∧ t < Tb := by
      rw [ha]
      intro t ht
      have ht2 : t < Ta := by simpa using List.mem_range.mp ht
      rcases hT with rfl | ⟨h1, h2⟩ <;> omega
    obtain ⟨l, hl, hlen⟩ := ssimLossList_range_some kw a b B2 Ta Tb C2 H2 W2
      ha hb hB hC (by omega) (by omega) _ hts
    have hlen0 : ¬ l.length = 0 := by
      rw [hlen, List.length_range, ha]
      show ¬ Ta = 0
      omega
    unfold customLossForward
    rw [hm]
    show (Option.bind (ssimLossList kw a b (List.range (a.shape.getD 1 0)))
      (fun tls => if tls.length = 0 then none
        else some (mw * m + sw * (tls.sum / tls.length)))).isSome = true
    rw [hl]
    show (if l.length = 0 then none
      else some (mw * m + sw * (l.sum / l.length))).isSome = true
    rw [if_neg hlen0]
    rfl

/-- C3, witness: the characterization applied to a concrete equal-shape
pair (where it asserts success). -/
theorem c3_loss_success_char_witness :
    ((customLossForward (fun _ _ => 0) (1 / 2) (1 / 2)
        ⟨[1, 2, 1, 11, 11], List.replicate 242 0⟩
        ⟨[1, 2, 1, 11, 11], List.replicate 242 0⟩).isSome ↔
      (1 = 1 ∧ 1 = 1 ∧ 11 = 11 ∧ 11 = 11 ∧ 1 ≤ 2 ∧
        (2 = 2 ∨ (2 = 1 ∧ 1 ≤ 2)))) :=
  c3_loss_success_char (fun _ _ => 0) (1 / 2) (1 / 2)
    ⟨[1, 2, 1, 11, 11], List.replicate 242 0⟩
    ⟨[1, 2, 1, 11, 11], List.replicate 242 0⟩
    1 2 1 11 11 1 2 1 11 11 rfl rfl (by decide) (by decide) (by decide)
    (by decide)

/-- C3, counterexample to the claim as stated: prediction `(1,1,1,11,11)`
and target `(1,2,1,11,11)` have different shapes, both are well formed, and
the composite loss silently broadcasts (`F.mse_loss` emits only a warning,
and the single sliced frame pair has equal shapes) and returns a scalar
instead of failing. -/
theorem c3_counterexample :
    (Tensor.mk [1, 1, 1, 11, 11] (List.replicate 121 (0 : ℚ))).shape ≠
      (Tensor.mk [1, 2, 1, 11, 11] (List.replicate 242 (0 : ℚ))).shape ∧
    (Tensor.mk [1, 1, 1, 11, 11] (List.replicate 121 (0 : ℚ))).wf ∧
    (Tensor.mk [1, 2, 1, 11, 11] (List.replicate 242 (0 : ℚ))).wf ∧
    (customLossForward (fun _ _ => 0) (1 / 2) (1 / 2)
      ⟨[1, 1, 1, 11, 11], List.replicate 121 0⟩
      ⟨[1, 2, 1, 11, 11], List.replicate 242 0⟩).isSome = true := by
  refine ⟨by decide, rfl, rfl, ?_⟩
  decide

/-! ### Dataset normalization (src lines 25-34) -/

/-- `np.min` over the flattened array (`none` on an empty array, where
numpy raises). -/
def npMin : List ℚ → Option ℚ
  | [] => none
  | x :: xs => some (xs.foldl min x)

/-- `np.max` over the flattened array (`none` on an empty array). -/
def npMax : List ℚ → Option ℚ
  | [] => none
  | x :: xs => some (xs.foldl max x)

/-- The running minimum bounds every element it has seen. -/
theorem foldl_min_le (xs : List ℚ) :
    ∀ x y : ℚ, y ∈ x :: xs → List.foldl min x xs ≤ y := by
  induction xs with
  | nil =>
      intro x y hy
      rcases List.mem_singleton.mp hy with rfl
      exact le_refl y
  | cons z zs ih =>
      intro x y hy
      show List.foldl min (min x z) zs ≤ y
      have hseed : List.foldl min (min x z) zs ≤ min x z :=
        ih (min x z) (min x z) (List.mem_cons_self _ _)
      rcases List.mem_cons.mp hy with rfl | hy2
      · exact le_trans hseed (min_le_left _ _)
      · rcases List.mem_cons.mp hy2 with rfl | hy3
        · exact le_trans hseed (min_le_right _ _)
        · exact ih (min x z) y (List.mem_cons_of_mem _ hy3)

/-- The running maximum bounds every element it has seen. -/
theorem le_foldl_max (xs : List ℚ) :
    ∀ x y : ℚ, y ∈ x :: xs → y ≤ List.foldl max x xs := by
  induction xs with
  | nil =>
      intro x y hy
      rcases List.mem_singleton.mp hy with rfl
      exact le_refl y
  | cons z zs ih =>
      intro x y hy
      show y ≤ List.foldl max (max x z) zs
      have hseed : max x z ≤ List.foldl max (max x z) zs :=
        ih (max x z) (max x z) (List.mem_cons_self _ _)
      rcases List.mem_cons.mp hy with rfl | hy2
      · exact le_trans (le_max_left _ _) hseed
      · rcases List.mem_cons.mp hy2 with rfl | hy3
        · exact le_trans (le_max_right _ _) hseed
        · exact ih (max x z) y (List.mem_cons_of_mem _ hy3)

/-- `npMin` bounds the list from below. -/
theorem npMin_le (l : List ℚ) (m : ℚ) (h : npMin l = some m) :
    ∀ v ∈ l, m ≤ v := by
  cases l with
  | nil => exact absurd h (by simp [npMin])
  | cons x xs =>
      intro v hv
      have hm : m = List.foldl min x xs := by
        simpa [npMin] using h.symm
      rw [hm]
      exact foldl_min_le xs x v hv

/-- `npMax` bounds the list from above. -/
theorem le_npMax (l : List ℚ) (M : ℚ) (h : npMax l = some M) :
    ∀ v ∈ l, v ≤ M := by
  cases l with
  | nil => exact absurd h (by simp [npMax])
  | cons x xs =>
      intro v hv
      have hM : M = List.foldl max x xs := by
        simpa [npMax] using h.symm
      rw [hM]
      exact le_foldl_max xs x v hv

/-- Per-sample min-max normalization `(A - A.min()) / (A.max() - A.min())`
(src lines 30-31).  On an empty array `np.min` raises; on a constant array
the denominator is zero and numpy produces division-by-zero non-finite
values (NaN), not numbers — both modelled as `none`. -/
def minMaxNormalize (l : List ℚ) : Option (List ℚ) :=
  match npMin l, npMax l with
  | some m, some M =>
      if M - m = 0 then none
      else some (l.map fun v => (v - m) / (M - m))
  | _, _ => none

/-- The normalization core of `CustomDataset.__getitem__` (src lines
30-34): the input and target arrays are normalized independently. -/
def datasetGetItem (x y : List ℚ) : Option (List ℚ × List ℚ) := do
  let nx ← minMaxNormalize x
  let ny ← minMaxNormalize y
  some (nx, ny)

/-- Normalization of a non-constant array succeeds with all values in
`[0, 1]`. -/
theorem minMaxNormalize_mem_unit (l : List ℚ) (m M : ℚ)
    (h1 : npMin l = some m) (h2 : npMax l = some M) (hlt : m < M) :
    ∃ r, minMaxNormalize l = some r ∧ ∀ v ∈ r, 0 ≤ v ∧ v ≤ 1 := by
  have hne : ¬ M - m = 0 := by
    intro h0
    have : M = m := by linarith
    exact absurd (this ▸ hlt) (lt_irrefl m)
  refine ⟨l.map fun v => (v - m) / (M - m), ?_, ?_⟩
  · unfold minMaxNormalize
    rw [h1, h2]
    show (if M - m = 0 then none
      else some (List.map (fun v => (v - m) / (M - m)) l)) = _
    rw [if_neg hne]
  · intro v hv
    obtain ⟨u, hu, rfl⟩ := List.mem_map.mp hv
    have hum := npMin_le l m h1 u hu
    have huM := le_npMax l M h2 u hu
    have hden : (0 : ℚ) < M - m := by linarith
    constructor
    · exact div_nonneg (by linarith) (le_of_lt hden)
    · rw [div_le_one hden]
      linarith

/-- C9, amended: for every sample whose two arrays are each non-constant
(minimum strictly below maximum), the dataset item accessor returns the two
independently min-max normalized tensors with all values in `[0, 1]`; for a
constant (or empty) array the division by `max - min = 0` yields NaNs
instead (modelled as failure). -/
theorem c9_getitem_normalized (x y : List ℚ) (mx Mx my My : ℚ)
    (hx1 : npMin x = some mx) (hx2 : npMax x = some Mx) (hmx : mx < Mx)
    (hy1 : npMin y = some my) (hy2 : npMax y = some My) (hmy : my < My) :
    ∃ nx ny, datasetGetItem x y = some (nx, ny) ∧
      (∀ v ∈ nx, 0 ≤ v ∧ v ≤ 1) ∧ (∀ v ∈ ny, 0 ≤ v ∧ v ≤ 1) := by
  obtain ⟨nx, hnx, hbx⟩ := minMaxNormalize_mem_unit x mx Mx hx1 hx2 hmx
  obtain ⟨ny, hny, hby⟩ := minMaxNormalize_mem_unit y my My hy1 hy2 hmy
  refine ⟨nx, ny, ?_, hbx, hby⟩
  unfold datasetGetItem
  rw [hnx]
  show Option.bind (minMaxNormalize y) (fun ny2 => some (nx, ny2)) = _
  rw [hny]
  rfl

/-- C9, witness: the amended theorem applied to the concrete sample
`X = [0, 2]`, `y = [1, 3]`. -/
theorem c9_getitem_normalized_witness :
    ∃ nx ny, datasetGetItem [0, 2] [1, 3] = some (nx, ny) ∧
      (∀ v ∈ nx, 0 ≤ v ∧ v ≤ 1) ∧ (∀ v ∈ ny, 0 ≤ v ∧ v ≤ 1) :=
  c9_getitem_normalized [0, 2] [1, 3] 0 2 1 3
    (by show some (min 0 2) = some 0; rw [min_eq_left (by norm_num)])
    (by show some (max 0 2) = some 2; rw [max_eq_right (by norm_num)])
    (by norm_num)
    (by show some (min 1 3) = some 1; rw [min_eq_left (by norm_num)])
    (by show some (max 1 3) = some 3; rw [max_eq_right (by norm_num)])
    (by norm_num)

/-- C9, counterexample to the claim as stated: the constant input array
`[1, 1]` makes `X.max() - X.min() = 0`, so the accessor divides by zero
(numpy emits NaNs — values not in `[0, 1]`) instead of returning normalized
values. -/
theorem c9_counterexample : datasetGetItem [1, 1] [0, 1] = none := by
  have hm : npMin [1, 1] = some 1 := by
    show some (min 1 1) = some 1
    rw [min_self]
  have hM : npMax [1, 1] = some 1 := by
    show some (max 1 1) = some 1
    rw [max_self]
  have h : minMaxNormalize [1, 1] = none := by
    unfold minMaxNormalize
    rw [hm, hM]
    show (if (1 : ℚ) - 1 = 0 then none
      else some (List.map (fun v => (v - 1) / (1 - 1)) [1, 1])) = none
    rw [if_pos (by norm_num)]
  show Option.bind (minMaxNormalize [1, 1]) _ = none
  rw [h]
  rfl

/-! ### Training loop (src lines 198-238) -/

/-- Batch splitting of an index list in order (a `DataLoader` with
`shuffle=False` enumerates consecutive batches). -/
def chunkList (bs : ℕ) : List ℕ → List (List ℕ)
  | [] => []
  | x :: xs => (x :: xs.take (bs - 1)) :: chunkList bs (xs.drop (bs - 1))
termination_by l => l.length
decreasing_by simp [List.length_drop]; omega

/-- `int(len(train_dataset) * 0.8)` (src line 210): the 80% train share
(exact arithmetic; the float product with `0.8` rounds to the same floor
for realistic sizes since the double closest to 0.8 is slightly above
0.8). -/
def trainSubsetSize (n : ℕ) : ℕ := 4 * n / 5

/-- What one epoch of the loop does, as a record: the fresh 80/20 split
drawn at the start of the epoch, the shuffled train batches, the in-order
validation batches, whether gradients are enabled during validation, and
whether the epoch printed a progress report. -/
structure EpochRecord where
  trainIdx : List ℕ
  valIdx : List ℕ
  trainBatches : List (List ℕ)
  valBatches : List (List ℕ)
  valGrad : Bool
  reported : Bool
deriving Repr, DecidableEq, Inhabited

/-- One epoch (src lines 206-236): `random_split` draws a fresh random
permutation of the pool (modelled by `splitPerm`, this epoch's entry of the
randomness stream) and takes the first `int(n*0.8)` indices as the train
subset and the rest as validation; the train loader visits the train subset
in shuffled order (`shufflePerm`) in batches of `batch_size`; the
validation loader visits the validation subset in order with gradients
disabled (`torch.no_grad`); the epoch reports iff `(epoch+1) % 5 == 0`
(src line 235). -/
def runEpoch (bs n : ℕ) (splitPerm shufflePerm : List ℕ) (e : ℕ) :
    EpochRecord :=
  let tr := splitPerm.take (trainSubsetSize n)
  let vl := splitPerm.drop (trainSubsetSize n)
  { trainIdx := tr
    valIdx := vl
    trainBatches := chunkList bs (shufflePerm.map fun i => tr.getD i 0)
    valBatches := chunkList bs vl
    valGrad := false
    reported := (e + 1) % 5 == 0 }

/-- `num_epochs = 20` (src line 204). -/
def numEpochs : ℕ := 20

/-- `batch_size = 32` (src line 45). -/
def batchSize : ℕ := 32

/-- The whole training loop `for epoch in range(num_epochs)` (src lines
206-236): epoch `e` consumes the `e`-th entries of the two randomness
streams and then the loop terminates (no early stopping). -/
def trainingLoop (nE bs n : ℕ) (splitStream shuffleStream : ℕ → List ℕ) :
    List EpochRecord :=
  (List.range nE).map fun e =>
    runEpoch bs n (splitStream e) (shuffleStream e) e

/-- C8: the training loop executes exactly `num_epochs = 20` epochs and
terminates; epoch `e` re-draws the fresh split from the `e`-th entry of the
randomness stream, an 80/20 partition of the pool; validation runs with
gradients disabled over the in-order batches of the validation subset; and
a progress report is emitted exactly on epochs 5, 10, 15, 20 (1-indexed)
and never otherwise. -/
theorem c8_training_loop (n : ℕ) (splitStream shuffleStream : ℕ → List ℕ)
    (hlen : ∀ e, (splitStream e).length = n) :
    (trainingLoop numEpochs batchSize n splitStream shuffleStream).length =
      20 ∧
    ∀ e, e < 20 →
      (trainingLoop numEpochs batchSize n splitStream
          shuffleStream).getD e default =
        runEpoch batchSize n (splitStream e) (shuffleStream e) e ∧
      ((runEpoch batchSize n (splitStream e) (shuffleStream e) e).reported =
          true ↔ (e + 1 = 5 ∨ e + 1 = 10 ∨ e + 1 = 15 ∨ e + 1 = 20)) ∧
      (runEpoch batchSize n (splitStream e) (shuffleStream e) e).valGrad =
        false ∧
      (runEpoch batchSize n (splitStream e) (shuffleStream e) e).trainIdx =
        (splitStream e).take (trainSubsetSize n) ∧
      (runEpoch batchSize n (splitStream e) (shuffleStream e) e).valIdx =
        (splitStream e).drop (trainSubsetSize n) ∧
      (runEpoch batchSize n (splitStream e)
          (shuffleStream e) e).trainIdx.length = trainSubsetSize n ∧
      (runEpoch batchSize n (splitStream e)
          (shuffleStream e) e).valIdx.length = n - trainSubsetSize n ∧
      (runEpoch batchSize n (splitStream e) (shuffleStream e) e).valBatches =
        chunkList batchSize
          ((runEpoch batchSize n (splitStream e) (shuffleStream e) e).valIdx)
      := by
  constructor
  · simp [trainingLoop, numEpochs]
  · intro e he
    refine ⟨?_, ?_, rfl, rfl, rfl, ?_, ?_, rfl⟩
    · unfold trainingLoop numEpochs
      rw [List.getD_eq_getElem?_getD, List.getElem?_map, List.getElem?_range
        (by simpa [numEpochs] using he)]
      rfl
    · show ((e + 1) % 5 == 0) = true ↔ _
      rw [beq_iff_eq]
      omega
    · show ((splitStream e).take (trainSubsetSize n)).length =
        trainSubsetSize n
      rw [List.length_take, hlen e]
      have : trainSubsetSize n ≤ n := by
        unfold trainSubsetSize
        omega
      omega
    · show ((splitStream e).drop (trainSubsetSize n)).length =
        n - trainSubsetSize n
      rw [List.length_drop, hlen e]

/-- C8, witness: the loop facts applied at a concrete pool of size 5 with
constant randomness streams, reading off the epoch-5 report. -/
theorem c8_training_loop_witness :
    (trainingLoop numEpochs batchSize 5 (fun _ => [0, 1, 2, 3, 4])
      (fun _ => [0, 1, 2, 3, 4])).length = 20 ∧
    ((runEpoch batchSize 5 [0, 1, 2, 3, 4] [0, 1, 2, 3, 4] 4).reported =
      true ↔ (4 + 1 = 5 ∨ 4 + 1 = 10 ∨ 4 + 1 = 15 ∨ 4 + 1 = 20)) := by
  have h := c8_training_loop 5 (fun _ => [0, 1, 2, 3, 4])
    (fun _ => [0, 1, 2, 3, 4]) (fun _ => rfl)
  exact ⟨h.1, (h.2 4 (by decide)).2.1⟩
